import Mathlib

/-!
# Verification of the 2Q cache (`common/cache/twoQueue/twoQueue.go`)

Shallow embedding of the `twoQ` package.  The cache composes three
bounded recency-ordered stores (the `lru` package's `LruCache`); that
building block is not part of the supplied sources, so it is modelled
from the specification's contract (§3, §6): a capacity-bounded list of
entries kept in recency order (oldest first), evicting the
least-recently-touched entry on overflow, treating an expired entry as
absent on `Get`/`Peek`/`Exist`, and supporting peeking without a
recency update.

Time is modelled by an explicit `now : Nat` argument on every operation
that consults expiries (in Go the stores read the wall clock
internally); expiry instants are `Option Nat` (`none` = no expiry, the
Go zero time).  Go `float64` ratios are modelled as `ℚ`; the claims
only exercise dyadic ratios (`0.25`, `0.5`, `0`, `1`) on which the two
agree exactly, and `int(float64(size) * ratio)` is truncation toward
zero of a non-negative product, i.e. the floor.
-/

/-- A stored entry: key, value, optional absolute expiry instant. -/
abbrev Entry (K V : Type) : Type := K × V × Option Nat

/-- An entry is live at time `now` unless its expiry instant has passed
(the spec requires expired entries to be treated as absent). -/
def liveAt {K V : Type} (now : Nat) (e : Entry K V) : Bool :=
  match e.2.2 with
  | none => true
  | some t => decide (now ≤ t)

/-- Remove every entry holding the given key. -/
def eraseKey {K V : Type} [DecidableEq K] (l : List (Entry K V)) (k : K) :
    List (Entry K V) :=
  l.filter (fun e => decide (e.1 ≠ k))

/-- Keep only the `m` most recent entries (the list is oldest-first, so
excess entries are dropped from the front). -/
def trim {K V : Type} (m : Nat) (l : List (Entry K V)) : List (Entry K V) :=
  l.drop (l.length - m)

/-- Modelled from the spec: the bounded recency-ordered store
("LRU building block", spec §3/§6) that each of the three internal
stores of the 2Q cache is an instance of; its Go implementation
(`common/cache/lru`) is not among the supplied sources.  `entries` is
kept in recency order, oldest first, most recently touched last. -/
structure LruCache (K V : Type) where
  maxSize : Nat
  entries : List (Entry K V)
deriving DecidableEq

namespace LruCache

variable {K V : Type} [DecidableEq K]

/-- Modelled from the spec: a fresh empty store with the declared capacity. -/
def New (size : Nat) : LruCache K V :=
  ⟨size, []⟩

/-- Modelled from the spec: `Len() → int`. -/
def Len (c : LruCache K V) : Nat :=
  c.entries.length

/-- The keys currently stored (oldest first), expired entries included. -/
def keys (c : LruCache K V) : List K :=
  c.entries.map (·.1)

/-- The entry holding the given key, if any. -/
def findEntry (c : LruCache K V) (k : K) : Option (Entry K V) :=
  c.entries.find? (fun e => decide (e.1 = k))

/-- Modelled from the spec: `Exist(key) → bool`, treating an expired
entry as absent. -/
def Exist (c : LruCache K V) (now : Nat) (k : K) : Bool :=
  c.entries.any (fun e => decide (e.1 = k) && liveAt now e)

/-- Modelled from the spec: `Peek(key) → (V, bool)` — no recency
update, expired entries treated as absent. -/
def Peek (c : LruCache K V) (now : Nat) (k : K) : Option V :=
  match c.findEntry k with
  | some e => if liveAt now e then some e.2.1 else none
  | none => none

/-- Modelled from the spec: `Get(key) → (V, bool)` — a hit refreshes
the entry's recency (moves it to the most-recent end); an expired entry
is treated as absent. -/
def Get (c : LruCache K V) (now : Nat) (k : K) : Option V × LruCache K V :=
  match c.findEntry k with
  | some e =>
    if liveAt now e then
      (some e.2.1, { c with entries := eraseKey c.entries k ++ [e] })
    else (none, c)
  | none => (none, c)

/-- Modelled from the spec: insertion with an optional expiry.  Any
previous entry for the key is replaced; the store then enforces its
declared capacity by evicting least-recently-touched entries. -/
def SetE (c : LruCache K V) (k : K) (v : V) (exp : Option Nat) : LruCache K V :=
  { c with entries := trim c.maxSize (eraseKey c.entries k ++ [(k, v, exp)]) }

/-- Modelled from the spec: `Set(key, value)` — no expiry attached
(the Go zero time). -/
def Set (c : LruCache K V) (k : K) (v : V) : LruCache K V :=
  c.SetE k v none

/-- Modelled from the spec: `SetWithExpire(key, value, expiry)`. -/
def SetWithExpire (c : LruCache K V) (k : K) (v : V) (e : Nat) : LruCache K V :=
  c.SetE k v (some e)

/-- Modelled from the spec: `Delete(key)`. -/
def Delete (c : LruCache K V) (k : K) : LruCache K V :=
  { c with entries := eraseKey c.entries k }

/-- Modelled from the spec: `DeleteOldest() → K` — evicts and returns
the least-recently-touched entry's key (`none` when empty, where Go
returns the zero key and does nothing). -/
def DeleteOldest (c : LruCache K V) : Option K × LruCache K V :=
  match c.entries with
  | [] => (none, c)
  | e :: rest => (some e.1, { c with entries := rest })

/-- Modelled from the spec: `Clear()`. -/
def Clear (c : LruCache K V) : LruCache K V :=
  { c with entries := [] }

end LruCache

/-- `TwoQueueCache` from `twoQueue.go`: overall capacity, the recent
soft target, and the three internal stores (`recentEvict` is the ghost
store, key-only). -/
structure TwoQueueCache (K V : Type) where
  size : Nat
  recentSize : Nat
  recent : LruCache K V
  frequent : LruCache K V
  recentEvict : LruCache K Unit
deriving DecidableEq

/-- `Default2QRecentRatio = 0.25`. -/
def Default2QRecentRatio : ℚ := 1 / 4

/-- `Default2QGhostEntries = 0.50`. -/
def Default2QGhostEntries : ℚ := 1 / 2

namespace TwoQueueCache

variable {K V : Type} [DecidableEq K]

/-- `New2QParams` from `twoQueue.go`: validates the capacity and the
two ratios, then builds the three stores (`recent` and `frequent` with
hard capacity `size`, the ghost store with `⌊size·ghostRatio⌋`).
Returns `none` where Go returns `nil`. -/
def New2QParams (size : Int) (recentRatio ghostRatio : ℚ) :
    Option (TwoQueueCache K V) :=
  if size ≤ 0 then none
  else if recentRatio < 0 ∨ 1 < recentRatio then none
  else if ghostRatio < 0 ∨ 1 < ghostRatio then none
  else
    some
      { size := size.toNat
        recentSize := (⌊(size : ℚ) * recentRatio⌋).toNat
        recent := LruCache.New size.toNat
        frequent := LruCache.New size.toNat
        recentEvict := LruCache.New (⌊(size : ℚ) * ghostRatio⌋).toNat }

/-- `New` from `twoQueue.go`: builds with the default ratios and
returns a `nil` error unconditionally (the second component models the
Go `error` result; it is always `none`). -/
def New (size : Int) : Option (TwoQueueCache K V) × Option String :=
  (New2QParams size Default2QRecentRatio Default2QGhostEntries, none)

/-- `ensureSpace` from `twoQueue.go`.  The parameter is Go's
`recentEvict bool` (true on the ghost-reentry path). -/
def ensureSpace (c : TwoQueueCache K V) (recentEvict : Bool) : TwoQueueCache K V :=
  let recentLen := c.recent.Len
  let freqLen := c.frequent.Len
  if recentLen + freqLen < c.size then c
  else if 0 < recentLen ∧
      (c.recentSize < recentLen ∨
        (recentLen = c.recentSize ∧ recentEvict = false)) then
    match c.recent.DeleteOldest with
    | (some k, r) => { c with recent := r, recentEvict := c.recentEvict.Set k () }
    | (none, r) => { c with recent := r }
  else { c with frequent := (c.frequent.DeleteOldest).2 }

/-- `Get` from `twoQueue.go`: consult `frequent` (recency-refreshing
hit), then `recent` (peek; a hit deletes from `recent` and promotes
into `frequent`), else a miss. -/
def Get (c : TwoQueueCache K V) (now : Nat) (key : K) :
    Option V × TwoQueueCache K V :=
  match c.frequent.Get now key with
  | (some v, f) => (some v, { c with frequent := f })
  | (none, _) =>
    match c.recent.Peek now key with
    | some v =>
      (some v,
        { c with recent := c.recent.Delete key, frequent := c.frequent.Set key v })
    | none => (none, c)

/-- `Set` from `twoQueue.go`: update in place in `frequent`; else
promote a `recent` hit into `frequent`; else re-admit a ghost hit
directly into `frequent` (after `ensureSpace(true)` and removing the
ghost entry); else `ensureSpace(false)` and insert into `recent`. -/
def Set (c : TwoQueueCache K V) (now : Nat) (key : K) (value : V) :
    TwoQueueCache K V :=
  if c.frequent.Exist now key then
    { c with frequent := c.frequent.Set key value }
  else if c.recent.Exist now key then
    { c with recent := c.recent.Delete key, frequent := c.frequent.Set key value }
  else if c.recentEvict.Exist now key then
    let c1 := c.ensureSpace true
    { c1 with
      recentEvict := c1.recentEvict.Delete key
      frequent := c1.frequent.Set key value }
  else
    let c1 := c.ensureSpace false
    { c1 with recent := c1.recent.Set key value }

/-- `SetWithExpire` from `twoQueue.go`: overwrite in `frequent` when
present there (no expiry attached), otherwise insert into `recent`
with the given expiry; the ghost store is never consulted. -/
def SetWithExpire (c : TwoQueueCache K V) (now : Nat) (key : K) (value : V)
    (expires : Nat) : TwoQueueCache K V :=
  if c.frequent.Exist now key then
    { c with frequent := c.frequent.Set key value }
  else
    { c with recent := c.recent.SetWithExpire key value expires }

/-- `Delete` from `twoQueue.go`: remove the key from all three stores. -/
def Delete (c : TwoQueueCache K V) (key : K) : TwoQueueCache K V :=
  { c with
    frequent := c.frequent.Delete key
    recent := c.recent.Delete key
    recentEvict := c.recentEvict.Delete key }

/-- `Clear` from `twoQueue.go`: empty all three stores. -/
def Clear (c : TwoQueueCache K V) : TwoQueueCache K V :=
  { c with
    recent := c.recent.Clear
    frequent := c.frequent.Clear
    recentEvict := c.recentEvict.Clear }

end TwoQueueCache

/-- A public operation of the cache, tagged with the time at which it
is issued (Go reads the wall clock inside the store operations). -/
inductive Op (K V : Type) where
  | set (now : Nat) (key : K) (value : V)
  | setWithExpire (now : Nat) (key : K) (value : V) (expires : Nat)
  | get (now : Nat) (key : K)
  | del (key : K)
  | clear
deriving DecidableEq

namespace Op

variable {K V : Type}

/-- The time at which an operation is issued (`Delete` and `Clear`
never consult the clock; they are assigned time 0). -/
def now : Op K V → Nat
  | .set t _ _ => t
  | .setWithExpire t _ _ _ => t
  | .get t _ => t
  | .del _ => 0
  | .clear => 0

/-- Whether the operation is a `SetWithExpire`. -/
def isSetWithExpire : Op K V → Bool
  | .setWithExpire _ _ _ _ => true
  | _ => false

end Op

/-- Apply one public operation to the cache state. -/
def stepOp {K V : Type} [DecidableEq K] (c : TwoQueueCache K V) :
    Op K V → TwoQueueCache K V
  | .set now k v => c.Set now k v
  | .setWithExpire now k v e => c.SetWithExpire now k v e
  | .get now k => (c.Get now k).2
  | .del k => c.Delete k
  | .clear => c.Clear

/-- Run a finite sequence of public operations. -/
def run {K V : Type} [DecidableEq K] (c : TwoQueueCache K V)
    (ops : List (Op K V)) : TwoQueueCache K V :=
  ops.foldl stepOp c

/-! ## Basic facts about the entry-list operations -/

section ListLemmas

variable {K V : Type} [DecidableEq K]

set_option linter.unusedSectionVars false

/-- Every entry of the list carries no expiry instant. -/
def allNone (l : List (Entry K V)) : Prop :=
  ∀ e ∈ l, e.2.2 = none

theorem liveAt_of_none (now : Nat) {e : Entry K V} (h : e.2.2 = none) :
    liveAt now e = true := by
  unfold liveAt
  rw [h]

theorem liveAt_eq_false_iff {now : Nat} {e : Entry K V} :
    liveAt now e = false ↔ ∃ t, e.2.2 = some t ∧ t < now := by
  unfold liveAt
  rcases e with ⟨k, v, _ | t⟩ <;> simp

theorem mem_eraseKey {l : List (Entry K V)} {k : K} {e : Entry K V} :
    e ∈ eraseKey l k ↔ e ∈ l ∧ e.1 ≠ k := by
  simp [eraseKey, List.mem_filter]

theorem eraseKey_sublist (l : List (Entry K V)) (k : K) :
    List.Sublist (eraseKey l k) l :=
  List.filter_sublist l

theorem mem_map_eraseKey {l : List (Entry K V)} {k a : K} :
    a ∈ (eraseKey l k).map (·.1) ↔ a ∈ l.map (·.1) ∧ a ≠ k := by
  simp only [List.mem_map]
  constructor
  · rintro ⟨e, he, rfl⟩
    rw [mem_eraseKey] at he
    exact ⟨⟨e, he.1, rfl⟩, he.2⟩
  · rintro ⟨⟨e, he, rfl⟩, hne⟩
    exact ⟨e, mem_eraseKey.mpr ⟨he, hne⟩, rfl⟩

theorem eraseKey_eq_self {l : List (Entry K V)} {k : K}
    (h : k ∉ l.map (·.1)) : eraseKey l k = l := by
  rw [eraseKey, List.filter_eq_self]
  intro e he
  simp only [decide_eq_true_eq]
  rintro rfl
  exact h (List.mem_map.mpr ⟨e, he, rfl⟩)

theorem length_eraseKey_le (l : List (Entry K V)) (k : K) :
    (eraseKey l k).length ≤ l.length :=
  (eraseKey_sublist l k).length_le

theorem length_eraseKey_of_mem {l : List (Entry K V)} {k : K}
    (hnd : (l.map (·.1)).Nodup) (hm : k ∈ l.map (·.1)) :
    (eraseKey l k).length + 1 = l.length := by
  induction l with
  | nil => simp at hm
  | cons e t ih =>
    simp only [List.map_cons, List.nodup_cons] at hnd
    rcases List.mem_cons.mp hm with h | h
    · have ht : eraseKey t k = t := eraseKey_eq_self (h ▸ hnd.1)
      have : eraseKey (e :: t) k = eraseKey t k := by
        simp [eraseKey, List.filter_cons, h]
      rw [this, ht]
      simp
    · have hne : e.1 ≠ k := by
        rintro rfl
        exact hnd.1 h
      have : eraseKey (e :: t) k = e :: eraseKey t k := by
        simp [eraseKey, List.filter_cons, hne]
      rw [this]
      simpa using ih hnd.2 h

theorem nodup_map_eraseKey {l : List (Entry K V)} {k : K}
    (h : (l.map (·.1)).Nodup) : ((eraseKey l k).map (·.1)).Nodup :=
  ((eraseKey_sublist l k).map (·.1)).nodup h

theorem not_mem_map_eraseKey (l : List (Entry K V)) (k : K) :
    k ∉ (eraseKey l k).map (·.1) := by
  intro h
  exact (mem_map_eraseKey.mp h).2 rfl

theorem trim_sublist (m : Nat) (l : List (Entry K V)) :
    List.Sublist (trim m l) l :=
  List.drop_sublist _ _

theorem mem_trim {m : Nat} {l : List (Entry K V)} {e : Entry K V}
    (h : e ∈ trim m l) : e ∈ l :=
  (trim_sublist m l).subset h

theorem length_trim (m : Nat) (l : List (Entry K V)) :
    (trim m l).length = min m l.length := by
  simp only [trim, List.length_drop]
  omega

theorem nodup_map_trim {m : Nat} {l : List (Entry K V)}
    (h : (l.map (·.1)).Nodup) : ((trim m l).map (·.1)).Nodup :=
  ((trim_sublist m l).map (·.1)).nodup h

theorem allNone_mono {l l' : List (Entry K V)} (hsub : ∀ e ∈ l', e ∈ l)
    (h : allNone l) : allNone l' :=
  fun e he => h e (hsub e he)

theorem allNone_nil : allNone ([] : List (Entry K V)) := by
  intro e he
  simp at he

end ListLemmas

/-! ## Facts about the store operations -/

namespace LruCache

variable {K V : Type} [DecidableEq K]

set_option linter.unusedSectionVars false

theorem exist_true_iff {c : LruCache K V} {now : Nat} {k : K} :
    c.Exist now k = true ↔ ∃ e ∈ c.entries, e.1 = k ∧ liveAt now e = true := by
  simp [Exist, List.any_eq_true, and_assoc]

theorem exist_true_mem_keys {c : LruCache K V} {now : Nat} {k : K}
    (h : c.Exist now k = true) : k ∈ c.keys := by
  obtain ⟨e, he, hk, -⟩ := exist_true_iff.mp h
  exact List.mem_map.mpr ⟨e, he, hk⟩

theorem exist_false_dead {c : LruCache K V} {now : Nat} {k : K}
    (h : c.Exist now k = false) :
    ∀ e ∈ c.entries, e.1 = k → liveAt now e = false := by
  intro e he hk
  by_contra hlive
  rw [Bool.not_eq_false] at hlive
  rw [Bool.eq_false_iff] at h
  exact h (exist_true_iff.mpr ⟨e, he, hk, hlive⟩)

theorem exist_false_not_mem_of_allNone {c : LruCache K V} {now : Nat} {k : K}
    (hn : allNone c.entries) (h : c.Exist now k = false) : k ∉ c.keys := by
  intro hm
  obtain ⟨e, he, hk⟩ := List.mem_map.mp hm
  have := exist_false_dead h e he hk
  rw [liveAt_of_none now (hn e he)] at this
  cases this

theorem findEntry_some {c : LruCache K V} {k : K} {e : Entry K V}
    (h : c.findEntry k = some e) : e ∈ c.entries ∧ e.1 = k := by
  have hm := List.mem_of_find?_eq_some h
  have hp := List.find?_some h
  simp only [decide_eq_true_eq] at hp
  exact ⟨hm, hp⟩

theorem findEntry_none_iff {c : LruCache K V} {k : K} :
    c.findEntry k = none ↔ k ∉ c.keys := by
  rw [findEntry, List.find?_eq_none]
  constructor
  · intro h hm
    obtain ⟨e, he, hk⟩ := List.mem_map.mp hm
    have := h e he
    simp [hk] at this
  · intro h e he
    simp only [decide_eq_true_eq]
    rintro rfl
    exact h (List.mem_map.mpr ⟨e, he, rfl⟩)

theorem peek_some_mem_keys {c : LruCache K V} {now : Nat} {k : K} {v : V}
    (h : c.Peek now k = some v) : k ∈ c.keys := by
  unfold Peek at h
  rcases hf : c.findEntry k with - | e
  · rw [hf] at h
    cases h
  · exact (findEntry_some hf).2 ▸ List.mem_map.mpr ⟨e, (findEntry_some hf).1, rfl⟩

theorem peek_none_of_exist_false {c : LruCache K V} {now : Nat} {k : K}
    (h : c.Exist now k = false) : c.Peek now k = none := by
  unfold Peek
  rcases hf : c.findEntry k with - | e
  · rfl
  · obtain ⟨he, hk⟩ := findEntry_some hf
    have hd := exist_false_dead h e he hk
    simp [hd]

theorem get_miss {c : LruCache K V} {now : Nat} {k : K}
    (h : (c.Get now k).1 = none) : (c.Get now k).2 = c := by
  unfold Get at h ⊢
  rcases hf : c.findEntry k with - | e
  · rfl
  · rw [hf] at h
    by_cases hl : liveAt now e = true
    · simp [hl] at h
    · rw [Bool.not_eq_true] at hl
      simp [hl]

theorem get_fst_none_not_mem_of_allNone {c : LruCache K V} {now : Nat} {k : K}
    (hn : allNone c.entries) (h : (c.Get now k).1 = none) : k ∉ c.keys := by
  unfold Get at h
  rcases hf : c.findEntry k with - | e
  · exact findEntry_none_iff.mp hf
  · rw [hf] at h
    obtain ⟨he, hk⟩ := findEntry_some hf
    have hl := liveAt_of_none now (hn e he)
    simp [hl] at h

theorem get_hit {c : LruCache K V} {now : Nat} {k : K} {v : V}
    (h : (c.Get now k).1 = some v) :
    ∃ e ∈ c.entries, e.1 = k ∧ e.2.1 = v ∧
      (c.Get now k).2 = { c with entries := eraseKey c.entries k ++ [e] } := by
  unfold Get at h ⊢
  rcases hf : c.findEntry k with - | e
  · rw [hf] at h
    simp at h
  · rw [hf] at h
    obtain ⟨he, hk⟩ := findEntry_some hf
    by_cases hl : liveAt now e = true
    · simp only [hl, if_true] at h
      refine ⟨e, he, hk, ?_, ?_⟩
      · simpa using h
      · simp [hl]
    · rw [Bool.not_eq_true] at hl
      simp [hl] at h

theorem SetE_maxSize (c : LruCache K V) (k : K) (v : V) (x : Option Nat) :
    (c.SetE k v x).maxSize = c.maxSize :=
  rfl

theorem mem_keys_SetE {c : LruCache K V} {k a : K} {v : V} {x : Option Nat}
    (h : a ∈ (c.SetE k v x).keys) : a ∈ c.keys ∨ a = k := by
  obtain ⟨e, he, hk⟩ := List.mem_map.mp h
  have he' := mem_trim he
  rcases List.mem_append.mp he' with h1 | h1
  · exact Or.inl (List.mem_map.mpr ⟨e, (mem_eraseKey.mp h1).1, hk⟩)
  · have h2 : e = (k, v, x) := by simpa using h1
    exact Or.inr (by rw [← hk, h2])

theorem nodup_keys_SetE {c : LruCache K V} {k : K} {v : V} {x : Option Nat}
    (h : c.keys.Nodup) : (c.SetE k v x).keys.Nodup := by
  apply nodup_map_trim
  rw [List.map_append]
  apply List.Nodup.append
  · exact nodup_map_eraseKey h
  · simp
  · intro a ha hb
    simp only [List.map_cons, List.map_nil, List.mem_singleton] at hb
    exact (mem_map_eraseKey.mp ha).2 hb

theorem allNone_SetE_none {c : LruCache K V} {k : K} {v : V}
    (h : allNone c.entries) : allNone (c.SetE k v none).entries := by
  intro e he
  have he' := mem_trim he
  rcases List.mem_append.mp he' with h1 | h1
  · exact h e (mem_eraseKey.mp h1).1
  · simp only [List.mem_singleton] at h1
    rw [h1]

theorem len_SetE_not_mem {c : LruCache K V} {k : K} {v : V} {x : Option Nat}
    (hnm : k ∉ c.keys) (hlt : c.Len + 1 ≤ c.maxSize) :
    (c.SetE k v x).Len = c.Len + 1 := by
  show (trim c.maxSize (eraseKey c.entries k ++ [(k, v, x)])).length = _
  rw [length_trim, eraseKey_eq_self hnm, List.length_append]
  simp only [List.length_singleton]
  unfold Len at hlt ⊢
  omega

theorem len_SetE_mem {c : LruCache K V} {k : K} {v : V} {x : Option Nat}
    (hnd : c.keys.Nodup) (hm : k ∈ c.keys) (hle : c.Len ≤ c.maxSize) :
    (c.SetE k v x).Len = c.Len := by
  show (trim c.maxSize (eraseKey c.entries k ++ [(k, v, x)])).length = _
  rw [length_trim, List.length_append]
  have := length_eraseKey_of_mem hnd hm
  simp only [List.length_singleton]
  unfold Len at hle ⊢
  omega

theorem mem_keys_Delete {c : LruCache K V} {k a : K} :
    a ∈ (c.Delete k).keys ↔ a ∈ c.keys ∧ a ≠ k :=
  mem_map_eraseKey

theorem nodup_keys_Delete {c : LruCache K V} {k : K}
    (h : c.keys.Nodup) : (c.Delete k).keys.Nodup :=
  nodup_map_eraseKey h

theorem len_Delete_mem {c : LruCache K V} {k : K}
    (hnd : c.keys.Nodup) (hm : k ∈ c.keys) :
    (c.Delete k).Len + 1 = c.Len :=
  length_eraseKey_of_mem hnd hm

theorem len_Delete_le (c : LruCache K V) (k : K) :
    (c.Delete k).Len ≤ c.Len :=
  length_eraseKey_le c.entries k

theorem allNone_Delete {c : LruCache K V} {k : K}
    (h : allNone c.entries) : allNone (c.Delete k).entries :=
  allNone_mono (fun e he => (mem_eraseKey.mp he).1) h

theorem Delete_eq_self {c : LruCache K V} {k : K}
    (h : k ∉ c.keys) : c.Delete k = c := by
  unfold Delete
  rw [eraseKey_eq_self h]

theorem DeleteOldest_snd_entries (c : LruCache K V) :
    (c.DeleteOldest).2.entries = c.entries.tail := by
  rcases c with ⟨m, - | ⟨e, rest⟩⟩ <;> rfl

theorem DeleteOldest_snd_maxSize (c : LruCache K V) :
    (c.DeleteOldest).2.maxSize = c.maxSize := by
  rcases c with ⟨m, - | ⟨-, rest⟩⟩ <;> rfl

end LruCache

/-! ## Facts about list moves and the eviction step -/

section MoveLemmas

variable {K V : Type} [DecidableEq K]

set_option linter.unusedSectionVars false

theorem mem_map_move {l : List (Entry K V)} {k a : K} {e : Entry K V}
    (h : a ∈ (eraseKey l k ++ [e]).map (·.1)) :
    a ∈ l.map (·.1) ∨ a = e.1 := by
  rw [List.map_append, List.mem_append] at h
  rcases h with h | h
  · exact Or.inl (mem_map_eraseKey.mp h).1
  · simp only [List.map_cons, List.map_nil, List.mem_singleton] at h
    exact Or.inr h

theorem nodup_keys_move {l : List (Entry K V)} {e : Entry K V}
    (hnd : (l.map (·.1)).Nodup) :
    ((eraseKey l e.1 ++ [e]).map (·.1)).Nodup := by
  rw [List.map_append]
  apply List.Nodup.append (nodup_map_eraseKey hnd) (by simp)
  intro a ha hb
  simp only [List.map_cons, List.map_nil, List.mem_singleton] at hb
  exact (mem_map_eraseKey.mp ha).2 hb

theorem length_move {l : List (Entry K V)} {e : Entry K V}
    (hnd : (l.map (·.1)).Nodup) (he : e ∈ l) :
    (eraseKey l e.1 ++ [e]).length = l.length := by
  rw [List.length_append]
  have hm : e.1 ∈ l.map (·.1) := List.mem_map.mpr ⟨e, he, rfl⟩
  have := length_eraseKey_of_mem hnd hm
  simp only [List.length_singleton]
  omega

theorem allNone_move {l : List (Entry K V)} {k : K} {e : Entry K V}
    (hn : allNone l) (he : e ∈ l) : allNone (eraseKey l k ++ [e]) := by
  intro x hx
  rcases List.mem_append.mp hx with h | h
  · exact hn x (mem_eraseKey.mp h).1
  · simp only [List.mem_singleton] at h
    rw [h]
    exact hn e he

end MoveLemmas

namespace TwoQueueCache

variable {K V : Type} [DecidableEq K]

set_option linter.unusedSectionVars false

/-- Case analysis of `ensureSpace`, mirroring the three arms of the Go
function. -/
theorem ensureSpace_spec (c : TwoQueueCache K V) (b : Bool) :
    (c.recent.Len + c.frequent.Len < c.size ∧ c.ensureSpace b = c) ∨
    (¬(c.recent.Len + c.frequent.Len < c.size) ∧
      (0 < c.recent.Len ∧
        (c.recentSize < c.recent.Len ∨
          (c.recent.Len = c.recentSize ∧ b = false))) ∧
      ∃ e rest, c.recent.entries = e :: rest ∧
        c.ensureSpace b =
          { c with recent := { c.recent with entries := rest },
                   recentEvict := c.recentEvict.Set e.1 () }) ∨
    (¬(c.recent.Len + c.frequent.Len < c.size) ∧
      ¬(0 < c.recent.Len ∧
        (c.recentSize < c.recent.Len ∨
          (c.recent.Len = c.recentSize ∧ b = false))) ∧
      c.ensureSpace b = { c with frequent := (c.frequent.DeleteOldest).2 }) := by
  unfold ensureSpace
  by_cases h1 : c.recent.Len + c.frequent.Len < c.size
  · left
    exact ⟨h1, by simp [h1]⟩
  · by_cases h2 : 0 < c.recent.Len ∧
      (c.recentSize < c.recent.Len ∨ (c.recent.Len = c.recentSize ∧ b = false))
    · right; left
      refine ⟨h1, h2, ?_⟩
      rcases hre : c.recent.entries with - | ⟨e, rest⟩
      · exfalso
        have : c.recent.Len = 0 := by simp [LruCache.Len, hre]
        omega
      · refine ⟨e, rest, rfl, ?_⟩
        have hdo : c.recent.DeleteOldest =
            (some e.1, { c.recent with entries := rest }) := by
          unfold LruCache.DeleteOldest
          rw [hre]
        simp [h1, h2, hdo]
    · right; right
      exact ⟨h1, h2, by simp [h1, h2]⟩

theorem ensureSpace_size (c : TwoQueueCache K V) (b : Bool) :
    (c.ensureSpace b).size = c.size := by
  rcases ensureSpace_spec c b with ⟨-, h⟩ | ⟨-, -, e, rest, -, h⟩ | ⟨-, -, h⟩ <;>
    rw [h]

theorem ensureSpace_recentSize (c : TwoQueueCache K V) (b : Bool) :
    (c.ensureSpace b).recentSize = c.recentSize := by
  rcases ensureSpace_spec c b with ⟨-, h⟩ | ⟨-, -, e, rest, -, h⟩ | ⟨-, -, h⟩ <;>
    rw [h]

theorem ensureSpace_recent_maxSize (c : TwoQueueCache K V) (b : Bool) :
    (c.ensureSpace b).recent.maxSize = c.recent.maxSize := by
  rcases ensureSpace_spec c b with ⟨-, h⟩ | ⟨-, -, e, rest, -, h⟩ | ⟨-, -, h⟩ <;>
    rw [h]

theorem ensureSpace_frequent_maxSize (c : TwoQueueCache K V) (b : Bool) :
    (c.ensureSpace b).frequent.maxSize = c.frequent.maxSize := by
  rcases ensureSpace_spec c b with ⟨-, h⟩ | ⟨-, -, e, rest, -, h⟩ | ⟨-, -, h⟩ <;>
    rw [h]
  exact c.frequent.DeleteOldest_snd_maxSize

theorem ensureSpace_recent_sub {c : TwoQueueCache K V} {b : Bool} :
    ∀ e ∈ (c.ensureSpace b).recent.entries, e ∈ c.recent.entries := by
  rcases ensureSpace_spec c b with ⟨-, h⟩ | ⟨-, -, e, rest, hre, h⟩ | ⟨-, -, h⟩ <;>
    rw [h] <;> intro x hx
  · exact hx
  · rw [hre]
    exact List.mem_cons_of_mem e hx
  · exact hx

theorem ensureSpace_frequent_sub {c : TwoQueueCache K V} {b : Bool} :
    ∀ e ∈ (c.ensureSpace b).frequent.entries, e ∈ c.frequent.entries := by
  rcases ensureSpace_spec c b with ⟨-, h⟩ | ⟨-, -, e, rest, hre, h⟩ | ⟨-, -, h⟩ <;>
    rw [h] <;> intro x hx
  · exact hx
  · exact hx
  · rw [c.frequent.DeleteOldest_snd_entries] at hx
    exact List.mem_of_mem_tail hx

theorem ensureSpace_recent_keys_sub {c : TwoQueueCache K V} {b : Bool} {a : K}
    (h : a ∈ (c.ensureSpace b).recent.keys) : a ∈ c.recent.keys := by
  obtain ⟨e, he, hk⟩ := List.mem_map.mp h
  exact List.mem_map.mpr ⟨e, ensureSpace_recent_sub e he, hk⟩

theorem ensureSpace_frequent_keys_sub {c : TwoQueueCache K V} {b : Bool} {a : K}
    (h : a ∈ (c.ensureSpace b).frequent.keys) : a ∈ c.frequent.keys := by
  obtain ⟨e, he, hk⟩ := List.mem_map.mp h
  exact List.mem_map.mpr ⟨e, ensureSpace_frequent_sub e he, hk⟩

theorem ensureSpace_ghost_keys {c : TwoQueueCache K V} {b : Bool} {a : K}
    (h : a ∈ (c.ensureSpace b).recentEvict.keys) :
    a ∈ c.recentEvict.keys ∨ a ∈ c.recent.keys := by
  rcases ensureSpace_spec c b with ⟨-, hq⟩ | ⟨-, -, e, rest, hre, hq⟩ | ⟨-, -, hq⟩ <;>
    rw [hq] at h
  · exact Or.inl h
  · rcases LruCache.mem_keys_SetE h with h' | h'
    · exact Or.inl h'
    · right
      rw [LruCache.keys, hre]
      rw [h']
      exact List.mem_cons_self _ _
  · exact Or.inl h

theorem ensureSpace_ghost_allNone {c : TwoQueueCache K V} {b : Bool}
    (hn : allNone c.recentEvict.entries) :
    allNone (c.ensureSpace b).recentEvict.entries := by
  rcases ensureSpace_spec c b with ⟨-, hq⟩ | ⟨-, -, e, rest, hre, hq⟩ | ⟨-, -, hq⟩ <;>
    rw [hq]
  · exact hn
  · exact LruCache.allNone_SetE_none hn
  · exact hn

end TwoQueueCache

/-! ## The capacity invariant -/

/-- State well-formedness backing the capacity bound: the two
value-holding stores have the hard capacity the constructor gave them,
keys are duplicate-free, no entry carries an expiry (no `SetWithExpire`
has occurred), `|recent| + |frequent| ≤ size` holds, and the recent
target is strictly below the overall capacity (true of every cache built
with `recentRatio < 1`, in particular of every default-constructed one). -/
structure InvCap {K V : Type} [DecidableEq K] (c : TwoQueueCache K V) : Prop where
  rMax : c.recent.maxSize = c.size
  fMax : c.frequent.maxSize = c.size
  rNodup : c.recent.keys.Nodup
  fNodup : c.frequent.keys.Nodup
  rNone : allNone c.recent.entries
  fNone : allNone c.frequent.entries
  cap : c.recent.Len + c.frequent.Len ≤ c.size
  target : c.recentSize < c.size

namespace InvCap

variable {K V : Type} [DecidableEq K] {c : TwoQueueCache K V}

set_option linter.unusedSectionVars false

theorem ensureSpace_invCap (h : InvCap c) (b : Bool) :
    InvCap (c.ensureSpace b) ∧
      (c.ensureSpace b).recent.Len + (c.ensureSpace b).frequent.Len < c.size := by
  rcases TwoQueueCache.ensureSpace_spec c b with
    ⟨hlt, hq⟩ | ⟨hge, hcond, e, rest, hre, hq⟩ | ⟨hge, hcond, hq⟩
  · rw [hq]
    exact ⟨h, hlt⟩
  · rw [hq]
    have hrl : c.recent.Len = rest.length + 1 := by
      simp [LruCache.Len, hre]
    have hnd : (rest.map (·.1)).Nodup := by
      have h2 := h.rNodup
      rw [LruCache.keys, hre] at h2
      simp only [List.map_cons, List.nodup_cons] at h2
      exact h2.2
    have hsub : ∀ x ∈ rest, x ∈ c.recent.entries := by
      intro x hx
      rw [hre]
      exact List.mem_cons_of_mem e hx
    refine ⟨⟨h.rMax, h.fMax, hnd, h.fNodup, allNone_mono hsub h.rNone,
      h.fNone, ?_, h.target⟩, ?_⟩
    · show rest.length + c.frequent.Len ≤ c.size
      have := h.cap
      omega
    · show rest.length + c.frequent.Len < c.size
      have := h.cap
      omega
  · rw [hq]
    have hfl : 1 ≤ c.frequent.Len := by
      rcases Nat.eq_zero_or_pos c.recent.Len with hr0 | hrpos
      · have hsz : 0 < c.size := lt_of_le_of_lt (Nat.zero_le _) h.target
        omega
      · have hrle : c.recent.Len ≤ c.recentSize := by
          by_contra hgt
          push_neg at hgt
          exact hcond ⟨hrpos, Or.inl hgt⟩
        have := h.target
        omega
    have hlen : (c.frequent.DeleteOldest).2.Len = c.frequent.Len - 1 := by
      rw [LruCache.Len, c.frequent.DeleteOldest_snd_entries, List.length_tail]
      rfl
    have hsubf : ∀ x ∈ (c.frequent.DeleteOldest).2.entries, x ∈ c.frequent.entries := by
      intro x hx
      rw [c.frequent.DeleteOldest_snd_entries] at hx
      exact List.mem_of_mem_tail hx
    have hndf : (c.frequent.DeleteOldest).2.keys.Nodup := by
      have hk := h.fNodup
      rw [LruCache.keys] at hk
      rw [LruCache.keys, c.frequent.DeleteOldest_snd_entries]
      exact ((List.tail_sublist c.frequent.entries).map (fun e : Entry K V => e.1)).nodup hk
    refine ⟨⟨h.rMax, ?_, h.rNodup, hndf, h.rNone,
      allNone_mono hsubf h.fNone, ?_, h.target⟩, ?_⟩
    · show (c.frequent.DeleteOldest).2.maxSize = c.size
      rw [c.frequent.DeleteOldest_snd_maxSize]
      exact h.fMax
    · show c.recent.Len + (c.frequent.DeleteOldest).2.Len ≤ c.size
      rw [hlen]
      have := h.cap
      omega
    · show c.recent.Len + (c.frequent.DeleteOldest).2.Len < c.size
      rw [hlen]
      have := h.cap
      omega

end InvCap


namespace InvCap

variable {K V : Type} [DecidableEq K] {c : TwoQueueCache K V}

set_option linter.unusedSectionVars false

theorem len_pos_of_mem_keys {W : Type} {s : LruCache K W} {k : K}
    (h : k ∈ s.keys) : 0 < s.Len := by
  obtain ⟨e, he, -⟩ := List.mem_map.mp h
  exact List.length_pos_of_mem he

theorem set_invCap (h : InvCap c) (now : Nat) (k : K) (v : V) :
    InvCap (c.Set now k v) := by
  by_cases h1 : c.frequent.Exist now k = true
  · have hq : c.Set now k v = { c with frequent := c.frequent.Set k v } := by
      simp [TwoQueueCache.Set, h1]
    rw [hq]
    have hkm := LruCache.exist_true_mem_keys h1
    have hfl : (c.frequent.Set k v).Len = c.frequent.Len :=
      LruCache.len_SetE_mem h.fNodup hkm (by rw [h.fMax]; have := h.cap; omega)
    refine ⟨h.rMax, ?_, h.rNodup, LruCache.nodup_keys_SetE h.fNodup, h.rNone,
      LruCache.allNone_SetE_none h.fNone, ?_, h.target⟩
    · show (c.frequent.Set k v).maxSize = c.size
      exact h.fMax
    · show c.recent.Len + (c.frequent.Set k v).Len ≤ c.size
      rw [hfl]
      exact h.cap
  · rw [Bool.not_eq_true] at h1
    have hknf : k ∉ c.frequent.keys :=
      LruCache.exist_false_not_mem_of_allNone h.fNone h1
    by_cases h2 : c.recent.Exist now k = true
    · have hq : c.Set now k v =
          { c with recent := c.recent.Delete k,
                   frequent := c.frequent.Set k v } := by
        simp [TwoQueueCache.Set, h1, h2]
      rw [hq]
      have hkm := LruCache.exist_true_mem_keys h2
      have hrpos : 0 < c.recent.Len := len_pos_of_mem_keys hkm
      have hrl := LruCache.len_Delete_mem h.rNodup hkm
      have hfl : (c.frequent.Set k v).Len = c.frequent.Len + 1 :=
        LruCache.len_SetE_not_mem hknf (by rw [h.fMax]; have := h.cap; omega)
      refine ⟨h.rMax, ?_, LruCache.nodup_keys_Delete h.rNodup,
        LruCache.nodup_keys_SetE h.fNodup, LruCache.allNone_Delete h.rNone,
        LruCache.allNone_SetE_none h.fNone, ?_, h.target⟩
      · show (c.frequent.Set k v).maxSize = c.size
        exact h.fMax
      · show (c.recent.Delete k).Len + (c.frequent.Set k v).Len ≤ c.size
        rw [hfl]
        have := h.cap
        omega
    · rw [Bool.not_eq_true] at h2
      have hknr : k ∉ c.recent.keys :=
        LruCache.exist_false_not_mem_of_allNone h.rNone h2
      by_cases h3 : c.recentEvict.Exist now k = true
      · obtain ⟨hc1, hlt⟩ := h.ensureSpace_invCap true
        have hq : c.Set now k v =
            { c.ensureSpace true with
                recentEvict := (c.ensureSpace true).recentEvict.Delete k,
                frequent := (c.ensureSpace true).frequent.Set k v } := by
          simp [TwoQueueCache.Set, h1, h2, h3]
        rw [hq]
        have hsz := TwoQueueCache.ensureSpace_size c true
        have hknf1 : k ∉ (c.ensureSpace true).frequent.keys := fun hm =>
          hknf (TwoQueueCache.ensureSpace_frequent_keys_sub hm)
        have hfl : ((c.ensureSpace true).frequent.Set k v).Len =
            (c.ensureSpace true).frequent.Len + 1 :=
          LruCache.len_SetE_not_mem hknf1 (by rw [hc1.fMax, hsz]; omega)
        refine ⟨?_, ?_, hc1.rNodup, LruCache.nodup_keys_SetE hc1.fNodup,
          hc1.rNone, LruCache.allNone_SetE_none hc1.fNone, ?_, ?_⟩
        · show (c.ensureSpace true).recent.maxSize = (c.ensureSpace true).size
          exact hc1.rMax
        · show ((c.ensureSpace true).frequent.Set k v).maxSize =
            (c.ensureSpace true).size
          exact hc1.fMax
        · show (c.ensureSpace true).recent.Len +
            ((c.ensureSpace true).frequent.Set k v).Len ≤ (c.ensureSpace true).size
          rw [hfl, hsz]
          omega
        · show (c.ensureSpace true).recentSize < (c.ensureSpace true).size
          exact hc1.target
      · rw [Bool.not_eq_true] at h3
        obtain ⟨hc1, hlt⟩ := h.ensureSpace_invCap false
        have hq : c.Set now k v =
            { c.ensureSpace false with
                recent := (c.ensureSpace false).recent.Set k v } := by
          simp [TwoQueueCache.Set, h1, h2, h3]
        rw [hq]
        have hsz := TwoQueueCache.ensureSpace_size c false
        have hknr1 : k ∉ (c.ensureSpace false).recent.keys := fun hm =>
          hknr (TwoQueueCache.ensureSpace_recent_keys_sub hm)
        have hrl : ((c.ensureSpace false).recent.Set k v).Len =
            (c.ensureSpace false).recent.Len + 1 :=
          LruCache.len_SetE_not_mem hknr1 (by rw [hc1.rMax, hsz]; omega)
        refine ⟨?_, ?_, LruCache.nodup_keys_SetE hc1.rNodup, hc1.fNodup,
          LruCache.allNone_SetE_none hc1.rNone, hc1.fNone, ?_, ?_⟩
        · show ((c.ensureSpace false).recent.Set k v).maxSize =
            (c.ensureSpace false).size
          exact hc1.rMax
        · show (c.ensureSpace false).frequent.maxSize = (c.ensureSpace false).size
          exact hc1.fMax
        · show ((c.ensureSpace false).recent.Set k v).Len +
            (c.ensureSpace false).frequent.Len ≤ (c.ensureSpace false).size
          rw [hrl, hsz]
          omega
        · show (c.ensureSpace false).recentSize < (c.ensureSpace false).size
          exact hc1.target

theorem get_invCap (h : InvCap c) (now : Nat) (k : K) :
    InvCap ((c.Get now k).2) := by
  rcases hg : c.frequent.Get now k with ⟨o, f⟩
  rcases o with - | v
  · rcases hp : c.recent.Peek now k with - | v
    · have hq : (c.Get now k).2 = c := by
        simp [TwoQueueCache.Get, hg, hp]
      rw [hq]
      exact h
    · have h1 : (c.frequent.Get now k).1 = none := by rw [hg]
      have hknf : k ∉ c.frequent.keys :=
        LruCache.get_fst_none_not_mem_of_allNone h.fNone h1
      have hkm : k ∈ c.recent.keys := LruCache.peek_some_mem_keys hp
      have hq : (c.Get now k).2 =
          { c with recent := c.recent.Delete k,
                   frequent := c.frequent.Set k v } := by
        simp [TwoQueueCache.Get, hg, hp]
      rw [hq]
      have hrpos : 0 < c.recent.Len := len_pos_of_mem_keys hkm
      have hrl := LruCache.len_Delete_mem h.rNodup hkm
      have hfl : (c.frequent.Set k v).Len = c.frequent.Len + 1 :=
        LruCache.len_SetE_not_mem hknf (by rw [h.fMax]; have := h.cap; omega)
      refine ⟨h.rMax, ?_, LruCache.nodup_keys_Delete h.rNodup,
        LruCache.nodup_keys_SetE h.fNodup, LruCache.allNone_Delete h.rNone,
        LruCache.allNone_SetE_none h.fNone, ?_, h.target⟩
      · show (c.frequent.Set k v).maxSize = c.size
        exact h.fMax
      · show (c.recent.Delete k).Len + (c.frequent.Set k v).Len ≤ c.size
        rw [hfl]
        have := h.cap
        omega
  · have h1 : (c.frequent.Get now k).1 = some v := by rw [hg]
    obtain ⟨e, he, hk, hv, hsnd⟩ := LruCache.get_hit h1
    have hf : f = { c.frequent with entries := eraseKey c.frequent.entries k ++ [e] } := by
      rw [hg] at hsnd
      exact hsnd
    have hq : (c.Get now k).2 = { c with frequent := f } := by
      simp [TwoQueueCache.Get, hg]
    rw [hq, hf]
    subst hk
    have hndm := h.fNodup
    rw [LruCache.keys] at hndm
    refine ⟨h.rMax, ?_, h.rNodup, ?_, h.rNone, ?_, ?_, h.target⟩
    · show c.frequent.maxSize = c.size
      exact h.fMax
    · show ((eraseKey c.frequent.entries e.1 ++ [e]).map (·.1)).Nodup
      exact nodup_keys_move hndm
    · exact allNone_move h.fNone he
    · show c.recent.Len + (eraseKey c.frequent.entries e.1 ++ [e]).length ≤ c.size
      rw [length_move hndm he]
      exact h.cap

theorem delete_invCap (h : InvCap c) (k : K) : InvCap (c.Delete k) := by
  have hr := LruCache.len_Delete_le c.recent k
  have hf := LruCache.len_Delete_le c.frequent k
  refine ⟨h.rMax, h.fMax, LruCache.nodup_keys_Delete h.rNodup,
    LruCache.nodup_keys_Delete h.fNodup, LruCache.allNone_Delete h.rNone,
    LruCache.allNone_Delete h.fNone, ?_, h.target⟩
  show (c.recent.Delete k).Len + (c.frequent.Delete k).Len ≤ c.size
  have := h.cap
  omega

theorem clear_invCap (h : InvCap c) : InvCap c.Clear := by
  refine ⟨h.rMax, h.fMax, ?_, ?_, ?_, ?_, ?_, h.target⟩
  · show (([] : List (Entry K V)).map (·.1)).Nodup
    simp
  · show (([] : List (Entry K V)).map (·.1)).Nodup
    simp
  · exact allNone_nil
  · exact allNone_nil
  · show (0 : Nat) + 0 ≤ c.size
    omega

theorem step_invCap (h : InvCap c) (op : Op K V)
    (hop : op.isSetWithExpire = false) : InvCap (stepOp c op) := by
  cases op with
  | set now k v => exact h.set_invCap now k v
  | setWithExpire now k v e => simp [Op.isSetWithExpire] at hop
  | get now k => exact h.get_invCap now k
  | del k => exact h.delete_invCap k
  | clear => exact h.clear_invCap

theorem run_invCap (h : InvCap c) (ops : List (Op K V))
    (hops : ∀ op ∈ ops, op.isSetWithExpire = false) : InvCap (run c ops) := by
  induction ops generalizing c with
  | nil => exact h
  | cons op t ih =>
    exact ih (h.step_invCap op (hops op (List.mem_cons_self op t)))
      (fun o ho => hops o (List.mem_cons_of_mem op ho))

end InvCap

/-! ## Structural constancy and constructor facts -/

namespace LruCache

variable {K V : Type} [DecidableEq K]

set_option linter.unusedSectionVars false

theorem mem_SetE {c : LruCache K V} {k : K} {v : V} {x : Option Nat}
    {e : Entry K V} (h : e ∈ (c.SetE k v x).entries) :
    (e ∈ c.entries ∧ e.1 ≠ k) ∨ e = (k, v, x) := by
  have h' := mem_trim h
  rcases List.mem_append.mp h' with h1 | h1
  · exact Or.inl (mem_eraseKey.mp h1)
  · simp only [List.mem_singleton] at h1
    exact Or.inr h1

theorem mem_keys_of_mem {c : LruCache K V} {e : Entry K V}
    (h : e ∈ c.entries) : e.1 ∈ c.keys :=
  List.mem_map.mpr ⟨e, h, rfl⟩

end LruCache

namespace TwoQueueCache

variable {K V : Type} [DecidableEq K]

set_option linter.unusedSectionVars false

theorem Set_size (c : TwoQueueCache K V) (now : Nat) (k : K) (v : V) :
    (c.Set now k v).size = c.size := by
  unfold Set
  split_ifs
  · rfl
  · rfl
  · exact ensureSpace_size c true
  · exact ensureSpace_size c false

theorem SetWithExpire_size (c : TwoQueueCache K V) (now : Nat) (k : K) (v : V)
    (ex : Nat) : (c.SetWithExpire now k v ex).size = c.size := by
  unfold SetWithExpire
  split_ifs <;> rfl

theorem Get_size (c : TwoQueueCache K V) (now : Nat) (k : K) :
    ((c.Get now k).2).size = c.size := by
  rcases hg : c.frequent.Get now k with ⟨o, f⟩
  rcases o with - | v
  · rcases hp : c.recent.Peek now k with - | v <;> simp [Get, hg, hp]
  · simp [Get, hg]

theorem Delete_size (c : TwoQueueCache K V) (k : K) :
    (c.Delete k).size = c.size :=
  rfl

theorem Clear_size (c : TwoQueueCache K V) : c.Clear.size = c.size :=
  rfl

theorem stepOp_size (c : TwoQueueCache K V) (op : Op K V) :
    (stepOp c op).size = c.size := by
  cases op with
  | set now k v => exact Set_size c now k v
  | setWithExpire now k v e => exact SetWithExpire_size c now k v e
  | get now k => exact Get_size c now k
  | del k => exact Delete_size c k
  | clear => exact Clear_size c

theorem run_size (c : TwoQueueCache K V) (ops : List (Op K V)) :
    (run c ops).size = c.size := by
  induction ops generalizing c with
  | nil => rfl
  | cons op t ih => exact (ih (stepOp c op)).trans (stepOp_size c op)

/-- The shape of every successfully constructed cache: all three stores
start empty, the value stores have hard capacity `size`, and the
derived sizes are the floors of the ratio products. -/
theorem New2QParams_some {sz : Int} {rr gr : ℚ} {c0 : TwoQueueCache K V}
    (h : New2QParams sz rr gr = some c0) :
    c0.size = sz.toNat ∧
    c0.recentSize = (⌊(sz : ℚ) * rr⌋).toNat ∧
    c0.recent.entries = [] ∧ c0.frequent.entries = [] ∧
    c0.recentEvict.entries = [] ∧
    c0.recent.maxSize = c0.size ∧ c0.frequent.maxSize = c0.size ∧
    c0.recentEvict.maxSize = (⌊(sz : ℚ) * gr⌋).toNat ∧
    0 < sz := by
  unfold New2QParams at h
  split_ifs at h with hs hr hg
  cases h
  push_neg at hs
  exact ⟨rfl, rfl, rfl, rfl, rfl, rfl, rfl, rfl, hs⟩

end TwoQueueCache

/-! ## The disjointness invariant -/

/-- State well-formedness backing the pairwise key-disjointness of the
three stores, maintained as long as no `SetWithExpire` occurs: no
duplicate recent keys, no expiries anywhere, and the three pairwise
disjointness facts. -/
structure InvDisj {K V : Type} [DecidableEq K] (c : TwoQueueCache K V) : Prop where
  rNodup : c.recent.keys.Nodup
  rNone : allNone c.recent.entries
  fNone : allNone c.frequent.entries
  gNone : allNone c.recentEvict.entries
  rf : ∀ a, a ∈ c.recent.keys → a ∉ c.frequent.keys
  rg : ∀ a, a ∈ c.recent.keys → a ∉ c.recentEvict.keys
  gf : ∀ a, a ∈ c.recentEvict.keys → a ∉ c.frequent.keys

namespace InvDisj

variable {K V : Type} [DecidableEq K] {c : TwoQueueCache K V}

set_option linter.unusedSectionVars false

theorem ensureSpace_invDisj (h : InvDisj c) (b : Bool) :
    InvDisj (c.ensureSpace b) := by
  rcases TwoQueueCache.ensureSpace_spec c b with
    ⟨-, hq⟩ | ⟨-, -, e, rest, hre, hq⟩ | ⟨-, -, hq⟩
  · rw [hq]
    exact h
  · rw [hq]
    have hkr := h.rNodup
    rw [LruCache.keys, hre] at hkr
    simp only [List.map_cons, List.nodup_cons] at hkr
    have he1r : e.1 ∈ c.recent.keys := by
      rw [LruCache.keys, hre]
      simp
    have hrest : ∀ a, a ∈ rest.map (·.1) → a ∈ c.recent.keys := by
      intro a ha
      rw [LruCache.keys, hre]
      simp only [List.map_cons, List.mem_cons]
      exact Or.inr ha
    have hsubr : ∀ x ∈ rest, x ∈ c.recent.entries := by
      intro x hx
      rw [hre]
      exact List.mem_cons_of_mem e hx
    refine ⟨hkr.2, allNone_mono hsubr h.rNone, h.fNone,
      LruCache.allNone_SetE_none h.gNone, ?_, ?_, ?_⟩
    · intro a ha
      exact h.rf a (hrest a ha)
    · intro a ha hg
      rcases LruCache.mem_keys_SetE hg with hg' | hg'
      · exact h.rg a (hrest a ha) hg'
      · rw [hg'] at ha
        exact hkr.1 ha
    · intro a hg
      rcases LruCache.mem_keys_SetE hg with hg' | hg'
      · exact h.gf a hg'
      · rw [hg']
        exact h.rf e.1 he1r
  · rw [hq]
    have hsubf : ∀ a, a ∈ (c.frequent.DeleteOldest).2.keys → a ∈ c.frequent.keys := by
      intro a ha
      obtain ⟨e, he, hk⟩ := List.mem_map.mp ha
      rw [c.frequent.DeleteOldest_snd_entries] at he
      exact List.mem_map.mpr ⟨e, List.mem_of_mem_tail he, hk⟩
    have hsubf' : ∀ x ∈ (c.frequent.DeleteOldest).2.entries, x ∈ c.frequent.entries := by
      intro x hx
      rw [c.frequent.DeleteOldest_snd_entries] at hx
      exact List.mem_of_mem_tail hx
    exact ⟨h.rNodup, h.rNone, allNone_mono hsubf' h.fNone, h.gNone,
      fun a ha hf => h.rf a ha (hsubf a hf),
      h.rg,
      fun a hg hf => h.gf a hg (hsubf a hf)⟩

theorem set_invDisj (h : InvDisj c) (now : Nat) (k : K) (v : V) :
    InvDisj (c.Set now k v) := by
  by_cases h1 : c.frequent.Exist now k = true
  · have hq : c.Set now k v = { c with frequent := c.frequent.Set k v } := by
      simp [TwoQueueCache.Set, h1]
    rw [hq]
    have hkmf := LruCache.exist_true_mem_keys h1
    refine ⟨h.rNodup, h.rNone, LruCache.allNone_SetE_none h.fNone, h.gNone,
      ?_, h.rg, ?_⟩
    · intro a ha hf
      rcases LruCache.mem_keys_SetE hf with hf' | hf'
      · exact h.rf a ha hf'
      · rw [hf'] at ha
        exact h.rf k ha hkmf
    · intro a hg hf
      rcases LruCache.mem_keys_SetE hf with hf' | hf'
      · exact h.gf a hg hf'
      · rw [hf'] at hg
        exact h.gf k hg hkmf
  · rw [Bool.not_eq_true] at h1
    have hknf : k ∉ c.frequent.keys :=
      LruCache.exist_false_not_mem_of_allNone h.fNone h1
    by_cases h2 : c.recent.Exist now k = true
    · have hq : c.Set now k v =
          { c with recent := c.recent.Delete k,
                   frequent := c.frequent.Set k v } := by
        simp [TwoQueueCache.Set, h1, h2]
      rw [hq]
      have hkmr := LruCache.exist_true_mem_keys h2
      refine ⟨LruCache.nodup_keys_Delete h.rNodup, LruCache.allNone_Delete h.rNone,
        LruCache.allNone_SetE_none h.fNone, h.gNone, ?_, ?_, ?_⟩
      · intro a ha hf
        obtain ⟨ha', hne⟩ := LruCache.mem_keys_Delete.mp ha
        rcases LruCache.mem_keys_SetE hf with hf' | hf'
        · exact h.rf a ha' hf'
        · exact hne hf'
      · intro a ha
        exact h.rg a (LruCache.mem_keys_Delete.mp ha).1
      · intro a hg hf
        rcases LruCache.mem_keys_SetE hf with hf' | hf'
        · exact h.gf a hg hf'
        · rw [hf'] at hg
          exact h.rg k hkmr hg
    · rw [Bool.not_eq_true] at h2
      have hknr : k ∉ c.recent.keys :=
        LruCache.exist_false_not_mem_of_allNone h.rNone h2
      by_cases h3 : c.recentEvict.Exist now k = true
      · have hd1 := h.ensureSpace_invDisj true
        have hq : c.Set now k v =
            { c.ensureSpace true with
                recentEvict := (c.ensureSpace true).recentEvict.Delete k,
                frequent := (c.ensureSpace true).frequent.Set k v } := by
          simp [TwoQueueCache.Set, h1, h2, h3]
        rw [hq]
        refine ⟨hd1.rNodup, hd1.rNone, LruCache.allNone_SetE_none hd1.fNone,
          LruCache.allNone_Delete hd1.gNone, ?_, ?_, ?_⟩
        · intro a ha hf
          rcases LruCache.mem_keys_SetE hf with hf' | hf'
          · exact hd1.rf a ha hf'
          · rw [hf'] at ha
            exact hknr (TwoQueueCache.ensureSpace_recent_keys_sub ha)
        · intro a ha hg
          exact hd1.rg a ha (LruCache.mem_keys_Delete.mp hg).1
        · intro a hg hf
          obtain ⟨hg', hne⟩ := LruCache.mem_keys_Delete.mp hg
          rcases LruCache.mem_keys_SetE hf with hf' | hf'
          · exact hd1.gf a hg' hf'
          · exact hne hf'
      · rw [Bool.not_eq_true] at h3
        have hkng : k ∉ c.recentEvict.keys :=
          LruCache.exist_false_not_mem_of_allNone h.gNone h3
        have hd1 := h.ensureSpace_invDisj false
        have hq : c.Set now k v =
            { c.ensureSpace false with
                recent := (c.ensureSpace false).recent.Set k v } := by
          simp [TwoQueueCache.Set, h1, h2, h3]
        rw [hq]
        refine ⟨LruCache.nodup_keys_SetE hd1.rNodup,
          LruCache.allNone_SetE_none hd1.rNone, hd1.fNone, hd1.gNone,
          ?_, ?_, hd1.gf⟩
        · intro a ha hf
          rcases LruCache.mem_keys_SetE ha with ha' | ha'
          · exact hd1.rf a ha' hf
          · rw [ha'] at hf
            exact hknf (TwoQueueCache.ensureSpace_frequent_keys_sub hf)
        · intro a ha hg
          rcases LruCache.mem_keys_SetE ha with ha' | ha'
          · exact hd1.rg a ha' hg
          · rw [ha'] at hg
            rcases TwoQueueCache.ensureSpace_ghost_keys hg with hg' | hg'
            · exact hkng hg'
            · exact hknr hg'

theorem get_invDisj (h : InvDisj c) (now : Nat) (k : K) :
    InvDisj ((c.Get now k).2) := by
  rcases hg : c.frequent.Get now k with ⟨o, f⟩
  rcases o with - | v
  · rcases hp : c.recent.Peek now k with - | v
    · have hq : (c.Get now k).2 = c := by
        simp [TwoQueueCache.Get, hg, hp]
      rw [hq]
      exact h
    · have hkmr : k ∈ c.recent.keys := LruCache.peek_some_mem_keys hp
      have hq : (c.Get now k).2 =
          { c with recent := c.recent.Delete k,
                   frequent := c.frequent.Set k v } := by
        simp [TwoQueueCache.Get, hg, hp]
      rw [hq]
      refine ⟨LruCache.nodup_keys_Delete h.rNodup, LruCache.allNone_Delete h.rNone,
        LruCache.allNone_SetE_none h.fNone, h.gNone, ?_, ?_, ?_⟩
      · intro a ha hf
        obtain ⟨ha', hne⟩ := LruCache.mem_keys_Delete.mp ha
        rcases LruCache.mem_keys_SetE hf with hf' | hf'
        · exact h.rf a ha' hf'
        · exact hne hf'
      · intro a ha
        exact h.rg a (LruCache.mem_keys_Delete.mp ha).1
      · intro a hga hf
        rcases LruCache.mem_keys_SetE hf with hf' | hf'
        · exact h.gf a hga hf'
        · rw [hf'] at hga
          exact h.rg k hkmr hga
  · have h1 : (c.frequent.Get now k).1 = some v := by rw [hg]
    obtain ⟨e, he, hk, hv, hsnd⟩ := LruCache.get_hit h1
    have hf : f = { c.frequent with
        entries := eraseKey c.frequent.entries k ++ [e] } := by
      rw [hg] at hsnd
      exact hsnd
    have hq : (c.Get now k).2 = { c with frequent := f } := by
      simp [TwoQueueCache.Get, hg]
    rw [hq, hf]
    have hsubf : ∀ a, a ∈ (eraseKey c.frequent.entries k ++ [e]).map (·.1) →
        a ∈ c.frequent.keys := by
      intro a ha
      rcases mem_map_move ha with ha' | ha'
      · exact ha'
      · rw [ha']
        exact LruCache.mem_keys_of_mem he
    exact ⟨h.rNodup, h.rNone, allNone_move h.fNone he, h.gNone,
      fun a ha hfm => h.rf a ha (hsubf a hfm),
      h.rg,
      fun a hga hfm => h.gf a hga (hsubf a hfm)⟩

theorem delete_invDisj (h : InvDisj c) (k : K) : InvDisj (c.Delete k) :=
  ⟨LruCache.nodup_keys_Delete h.rNodup, LruCache.allNone_Delete h.rNone,
    LruCache.allNone_Delete h.fNone, LruCache.allNone_Delete h.gNone,
    fun a ha hf => h.rf a (LruCache.mem_keys_Delete.mp ha).1
      (LruCache.mem_keys_Delete.mp hf).1,
    fun a ha hg => h.rg a (LruCache.mem_keys_Delete.mp ha).1
      (LruCache.mem_keys_Delete.mp hg).1,
    fun a hg hf => h.gf a (LruCache.mem_keys_Delete.mp hg).1
      (LruCache.mem_keys_Delete.mp hf).1⟩

theorem clear_invDisj (_h : InvDisj c) : InvDisj c.Clear := by
  refine ⟨?_, allNone_nil, allNone_nil, allNone_nil, ?_, ?_, ?_⟩
  · show (([] : List (Entry K V)).map (·.1)).Nodup
    simp
  all_goals intro a ha; simp [TwoQueueCache.Clear, LruCache.Clear, LruCache.keys] at ha

theorem step_invDisj (h : InvDisj c) (op : Op K V)
    (hop : op.isSetWithExpire = false) : InvDisj (stepOp c op) := by
  cases op with
  | set now k v => exact h.set_invDisj now k v
  | setWithExpire now k v e => simp [Op.isSetWithExpire] at hop
  | get now k => exact h.get_invDisj now k
  | del k => exact h.delete_invDisj k
  | clear => exact h.clear_invDisj

theorem run_invDisj (h : InvDisj c) (ops : List (Op K V))
    (hops : ∀ op ∈ ops, op.isSetWithExpire = false) : InvDisj (run c ops) := by
  induction ops generalizing c with
  | nil => exact h
  | cons op t ih =>
    exact ih (h.step_invDisj op (hops op (List.mem_cons_self op t)))
      (fun o ho => hops o (List.mem_cons_of_mem op ho))

end InvDisj

/-! ## The liveness invariant: a key in `frequent` can sit in `recent`
only as an already-expired leftover -/

/-- Every entry in `frequent` has no expiry, and any entry of `recent`
whose key is also in `frequent` is already expired before time `T`.
Holds along any run whose operations are all issued at times `≤ T`. -/
structure InvLive {K V : Type} [DecidableEq K] (T : Nat) (c : TwoQueueCache K V) : Prop where
  fNone : allNone c.frequent.entries
  dead : ∀ e ∈ c.recent.entries, e.1 ∈ c.frequent.keys →
    ∃ t, e.2.2 = some t ∧ t < T

namespace InvLive

variable {K V : Type} [DecidableEq K] {T : Nat} {c : TwoQueueCache K V}

set_option linter.unusedSectionVars false

theorem ensureSpace_invLive (h : InvLive T c) (b : Bool) :
    InvLive T (c.ensureSpace b) := by
  refine ⟨allNone_mono TwoQueueCache.ensureSpace_frequent_sub h.fNone, ?_⟩
  intro e he hf
  exact h.dead e (TwoQueueCache.ensureSpace_recent_sub e he)
    (TwoQueueCache.ensureSpace_frequent_keys_sub hf)

theorem set_invLive (h : InvLive T c) {now : Nat} (k : K) (v : V)
    (hnow : now ≤ T) : InvLive T (c.Set now k v) := by
  by_cases h1 : c.frequent.Exist now k = true
  · have hq : c.Set now k v = { c with frequent := c.frequent.Set k v } := by
      simp [TwoQueueCache.Set, h1]
    rw [hq]
    have hkmf := LruCache.exist_true_mem_keys h1
    refine ⟨LruCache.allNone_SetE_none h.fNone, ?_⟩
    intro e he hf
    rcases LruCache.mem_keys_SetE hf with hf' | hf'
    · exact h.dead e he hf'
    · exact h.dead e he (hf' ▸ hkmf)
  · rw [Bool.not_eq_true] at h1
    have hknf : k ∉ c.frequent.keys :=
      LruCache.exist_false_not_mem_of_allNone h.fNone h1
    by_cases h2 : c.recent.Exist now k = true
    · have hq : c.Set now k v =
          { c with recent := c.recent.Delete k,
                   frequent := c.frequent.Set k v } := by
        simp [TwoQueueCache.Set, h1, h2]
      rw [hq]
      refine ⟨LruCache.allNone_SetE_none h.fNone, ?_⟩
      intro e he hf
      obtain ⟨he', hne⟩ := mem_eraseKey.mp he
      rcases LruCache.mem_keys_SetE hf with hf' | hf'
      · exact h.dead e he' hf'
      · exact absurd hf' hne
    · rw [Bool.not_eq_true] at h2
      by_cases h3 : c.recentEvict.Exist now k = true
      · have hd1 := h.ensureSpace_invLive true
        have hq : c.Set now k v =
            { c.ensureSpace true with
                recentEvict := (c.ensureSpace true).recentEvict.Delete k,
                frequent := (c.ensureSpace true).frequent.Set k v } := by
          simp [TwoQueueCache.Set, h1, h2, h3]
        rw [hq]
        refine ⟨LruCache.allNone_SetE_none hd1.fNone, ?_⟩
        intro e he hf
        rcases LruCache.mem_keys_SetE hf with hf' | hf'
        · exact hd1.dead e he hf'
        · -- the key re-admitted from ghost has only dead leftovers in recent
          have he' := TwoQueueCache.ensureSpace_recent_sub e he
          have hdead := LruCache.exist_false_dead h2 e he' (by rw [hf'])
          obtain ⟨t, ht, hlt⟩ := liveAt_eq_false_iff.mp hdead
          exact ⟨t, ht, lt_of_lt_of_le hlt hnow⟩
      · rw [Bool.not_eq_true] at h3
        have hd1 := h.ensureSpace_invLive false
        have hq : c.Set now k v =
            { c.ensureSpace false with
                recent := (c.ensureSpace false).recent.Set k v } := by
          simp [TwoQueueCache.Set, h1, h2, h3]
        rw [hq]
        refine ⟨hd1.fNone, ?_⟩
        intro e he hf
        rcases LruCache.mem_SetE he with ⟨he', -⟩ | he'
        · exact hd1.dead e he' hf
        · exfalso
          rw [he'] at hf
          exact hknf (TwoQueueCache.ensureSpace_frequent_keys_sub hf)

theorem setWithExpire_invLive (h : InvLive T c) {now : Nat} (k : K) (v : V)
    (ex : Nat) : InvLive T (c.SetWithExpire now k v ex) := by
  by_cases h1 : c.frequent.Exist now k = true
  · have hq : c.SetWithExpire now k v ex =
        { c with frequent := c.frequent.Set k v } := by
      simp [TwoQueueCache.SetWithExpire, h1]
    rw [hq]
    have hkmf := LruCache.exist_true_mem_keys h1
    refine ⟨LruCache.allNone_SetE_none h.fNone, ?_⟩
    intro e he hf
    rcases LruCache.mem_keys_SetE hf with hf' | hf'
    · exact h.dead e he hf'
    · exact h.dead e he (hf' ▸ hkmf)
  · rw [Bool.not_eq_true] at h1
    have hknf : k ∉ c.frequent.keys :=
      LruCache.exist_false_not_mem_of_allNone h.fNone h1
    have hq : c.SetWithExpire now k v ex =
        { c with recent := c.recent.SetWithExpire k v ex } := by
      simp [TwoQueueCache.SetWithExpire, h1]
    rw [hq]
    refine ⟨h.fNone, ?_⟩
    intro e he hf
    rcases LruCache.mem_SetE he with ⟨he', -⟩ | he'
    · exact h.dead e he' hf
    · exfalso
      rw [he'] at hf
      exact hknf hf

theorem get_invLive (h : InvLive T c) (now : Nat) (k : K) :
    InvLive T ((c.Get now k).2) := by
  rcases hg : c.frequent.Get now k with ⟨o, f⟩
  rcases o with - | v
  · rcases hp : c.recent.Peek now k with - | v
    · have hq : (c.Get now k).2 = c := by
        simp [TwoQueueCache.Get, hg, hp]
      rw [hq]
      exact h
    · have hq : (c.Get now k).2 =
          { c with recent := c.recent.Delete k,
                   frequent := c.frequent.Set k v } := by
        simp [TwoQueueCache.Get, hg, hp]
      rw [hq]
      refine ⟨LruCache.allNone_SetE_none h.fNone, ?_⟩
      intro e he hf
      obtain ⟨he', hne⟩ := mem_eraseKey.mp he
      rcases LruCache.mem_keys_SetE hf with hf' | hf'
      · exact h.dead e he' hf'
      · exact absurd hf' hne
  · have h1 : (c.frequent.Get now k).1 = some v := by rw [hg]
    obtain ⟨e0, he0, hk0, hv0, hsnd⟩ := LruCache.get_hit h1
    have hf : f = { c.frequent with
        entries := eraseKey c.frequent.entries k ++ [e0] } := by
      rw [hg] at hsnd
      exact hsnd
    have hq : (c.Get now k).2 = { c with frequent := f } := by
      simp [TwoQueueCache.Get, hg]
    rw [hq, hf]
    refine ⟨allNone_move h.fNone he0, ?_⟩
    intro e he hfm
    rcases mem_map_move hfm with hfm' | hfm'
    · exact h.dead e he hfm'
    · exact h.dead e he (hfm' ▸ LruCache.mem_keys_of_mem he0)

theorem delete_invLive (h : InvLive T c) (k : K) : InvLive T (c.Delete k) := by
  refine ⟨LruCache.allNone_Delete h.fNone, ?_⟩
  intro e he hf
  exact h.dead e (mem_eraseKey.mp he).1 (LruCache.mem_keys_Delete.mp hf).1

theorem clear_invLive (_h : InvLive T c) : InvLive T c.Clear := by
  refine ⟨allNone_nil, ?_⟩
  intro e he hf
  simp [TwoQueueCache.Clear, LruCache.Clear] at he

theorem step_invLive (h : InvLive T c) (op : Op K V)
    (hop : op.now ≤ T) : InvLive T (stepOp c op) := by
  cases op with
  | set now k v => exact h.set_invLive k v hop
  | setWithExpire now k v e => exact h.setWithExpire_invLive k v e
  | get now k => exact h.get_invLive now k
  | del k => exact h.delete_invLive k
  | clear => exact h.clear_invLive

theorem run_invLive (h : InvLive T c) (ops : List (Op K V))
    (hops : ∀ op ∈ ops, op.now ≤ T) : InvLive T (run c ops) := by
  induction ops generalizing c with
  | nil => exact h
  | cons op t ih =>
    exact ih (h.step_invLive op (hops op (List.mem_cons_self op t)))
      (fun o ho => hops o (List.mem_cons_of_mem op ho))

end InvLive

/-! ## Concrete instances used by the claims -/

/-- The cache `New(4)` builds: capacity 4, `recentSize = ⌊4·0.25⌋ = 1`,
ghost capacity `⌊4·0.5⌋ = 2`, all stores empty. -/
def defaultCache4 : TwoQueueCache Nat Nat :=
  ⟨4, 1, ⟨4, []⟩, ⟨4, []⟩, ⟨2, []⟩⟩

/-- The same cache with string values (the reference test scenario). -/
def defaultCache4S : TwoQueueCache Nat String :=
  ⟨4, 1, ⟨4, []⟩, ⟨4, []⟩, ⟨2, []⟩⟩

/-- The cache `New2QParams(2, 1.0, 1.0)` builds: `recentSize = size = 2`. -/
def ratioOneCache2 : TwoQueueCache Nat Nat :=
  ⟨2, 2, ⟨2, []⟩, ⟨2, []⟩, ⟨2, []⟩⟩

theorem New2QParams_eval_default4 :
    (TwoQueueCache.New2QParams 4 Default2QRecentRatio Default2QGhostEntries :
      Option (TwoQueueCache Nat Nat)) = some defaultCache4 := by
  unfold TwoQueueCache.New2QParams Default2QRecentRatio Default2QGhostEntries
  norm_num [defaultCache4, LruCache.New]
  decide

theorem New2QParams_eval_default4S :
    (TwoQueueCache.New2QParams 4 Default2QRecentRatio Default2QGhostEntries :
      Option (TwoQueueCache Nat String)) = some defaultCache4S := by
  unfold TwoQueueCache.New2QParams Default2QRecentRatio Default2QGhostEntries
  norm_num [defaultCache4S, LruCache.New]
  decide

theorem New2QParams_eval_ratioOne2 :
    (TwoQueueCache.New2QParams 2 1 1 : Option (TwoQueueCache Nat Nat)) =
      some ratioOneCache2 := by
  unfold TwoQueueCache.New2QParams
  norm_num [ratioOneCache2, LruCache.New]
  decide

theorem New_eval_default4 :
    (TwoQueueCache.New 4 : Option (TwoQueueCache Nat Nat) × Option String).1 =
      some defaultCache4 := by
  show (TwoQueueCache.New2QParams 4 Default2QRecentRatio Default2QGhostEntries :
    Option (TwoQueueCache Nat Nat)) = some defaultCache4
  exact New2QParams_eval_default4

/-- Setting the keys `1..5` in order (time 0, no expiries). -/
def opsFive : List (Op Nat Nat) :=
  [.set 0 1 1, .set 0 2 2, .set 0 3 3, .set 0 4 4, .set 0 5 5]

/-- A trace whose last two operations are expiring inserts of fresh
keys while `|recent| + |frequent|` already equals the capacity. -/
def opsSweOverflow : List (Op Nat Nat) :=
  [.set 0 1 1, .set 0 2 2, .set 0 3 3, .get 0 1,
   .setWithExpire 0 9 9 100, .setWithExpire 0 10 10 100]

/-- Plain `Set` traffic on the `recentRatio = 1` cache: fill, evict key
1 to the ghost store, then re-admit it while `frequent` is empty. -/
def opsRatioOne : List (Op Nat Nat) :=
  [.set 0 1 1, .set 0 2 2, .set 0 3 3, .set 0 1 9]

/-- Evict key 1 to the ghost store, re-insert it with an expiry (so it
re-enters `recent` while its ghost entry remains), then `Get` it, which
promotes it to `frequent` without touching the ghost store. -/
def opsGhostFreq : List (Op Nat Nat) :=
  opsFive ++ [.setWithExpire 0 1 7 100, .get 0 1]

/-! ## Invariants hold at construction -/

theorem invCap_init {K V : Type} [DecidableEq K] {sz : Int} {rr gr : ℚ}
    {c0 : TwoQueueCache K V}
    (h : TwoQueueCache.New2QParams sz rr gr = some c0)
    (ht : c0.recentSize < c0.size) : InvCap c0 := by
  obtain ⟨-, -, hre, hfe, -, hrm, hfm, -, -⟩ := TwoQueueCache.New2QParams_some h
  refine ⟨hrm, hfm, ?_, ?_, ?_, ?_, ?_, ht⟩
  · rw [LruCache.keys, hre]
    simp
  · rw [LruCache.keys, hfe]
    simp
  · intro e he
    rw [hre] at he
    cases he
  · intro e he
    rw [hfe] at he
    cases he
  · rw [LruCache.Len, LruCache.Len, hre, hfe]
    simp

theorem invDisj_init {K V : Type} [DecidableEq K] {sz : Int} {rr gr : ℚ}
    {c0 : TwoQueueCache K V}
    (h : TwoQueueCache.New2QParams sz rr gr = some c0) : InvDisj c0 := by
  obtain ⟨-, -, hre, hfe, hge, -, -, -, -⟩ := TwoQueueCache.New2QParams_some h
  refine ⟨?_, ?_, ?_, ?_, ?_, ?_, ?_⟩
  · rw [LruCache.keys, hre]
    simp
  · intro e he
    rw [hre] at he
    cases he
  · intro e he
    rw [hfe] at he
    cases he
  · intro e he
    rw [hge] at he
    cases he
  · intro a ha
    rw [LruCache.keys, hre] at ha
    cases ha
  · intro a ha
    rw [LruCache.keys, hre] at ha
    cases ha
  · intro a ha
    rw [LruCache.keys, hge] at ha
    cases ha

theorem invLive_init {K V : Type} [DecidableEq K] (T : Nat) {sz : Int}
    {rr gr : ℚ} {c0 : TwoQueueCache K V}
    (h : TwoQueueCache.New2QParams sz rr gr = some c0) : InvLive T c0 := by
  obtain ⟨-, -, hre, hfe, -, -, -, -, -⟩ := TwoQueueCache.New2QParams_some h
  refine ⟨?_, ?_⟩
  · intro e he
    rw [hfe] at he
    cases he
  · intro e he
    rw [hre] at he
    cases he

/-! ## Claim C1 -/

/-- C1 as stated is false on the code in two independent ways: (a) on a
default cache of capacity 4, a trace ending in two `SetWithExpire`
calls on fresh keys drives `|recent| + |frequent|` to 5 > 4, because
`SetWithExpire` inserts into `recent` without calling `ensureSpace`;
(b) on `New2QParams(2, 1.0, 1.0)` (a successful construction), four
plain `Set` calls drive `|recent| + |frequent|` to 3 > 2, because the
ghost-reentry branch of `ensureSpace` falls through to evicting from an
empty `frequent` (a no-op) when `|recent| = recentSize`. -/
theorem claim1_counterexample :
    ((TwoQueueCache.New2QParams 4 Default2QRecentRatio Default2QGhostEntries :
        Option (TwoQueueCache Nat Nat)) = some defaultCache4 ∧
      defaultCache4.size < (run defaultCache4 opsSweOverflow).recent.Len +
        (run defaultCache4 opsSweOverflow).frequent.Len) ∧
    ((TwoQueueCache.New2QParams 2 1 1 : Option (TwoQueueCache Nat Nat)) =
        some ratioOneCache2 ∧
      (∀ op ∈ opsRatioOne, op.isSetWithExpire = false) ∧
      ratioOneCache2.size < (run ratioOneCache2 opsRatioOne).recent.Len +
        (run ratioOneCache2 opsRatioOne).frequent.Len) :=
  ⟨⟨New2QParams_eval_default4, by decide⟩,
    New2QParams_eval_ratioOne2, by decide, by decide⟩

/-- C1 (amended): for every successfully constructed cache whose recent
target is strictly below the capacity (equivalently `recentRatio < 1`;
true of every default-constructed cache) and every finite sequence of
public operations not containing `SetWithExpire`, after each operation
`|recent| + |frequent| ≤ overallCapacity`. -/
theorem claim1_amended_theorem {K V : Type} [DecidableEq K] (sz : Int)
    (rr gr : ℚ) (c0 : TwoQueueCache K V) (ops : List (Op K V))
    (hc : TwoQueueCache.New2QParams sz rr gr = some c0)
    (ht : c0.recentSize < c0.size)
    (hops : ∀ op ∈ ops, op.isSetWithExpire = false) :
    (run c0 ops).recent.Len + (run c0 ops).frequent.Len ≤ c0.size := by
  have hinv := (invCap_init hc ht).run_invCap ops hops
  have hcap := hinv.cap
  rwa [TwoQueueCache.run_size c0 ops] at hcap

theorem claim1_amended_witness :
    (run defaultCache4 opsFive).recent.Len +
      (run defaultCache4 opsFive).frequent.Len ≤ defaultCache4.size :=
  claim1_amended_theorem 4 Default2QRecentRatio Default2QGhostEntries
    defaultCache4 opsFive New2QParams_eval_default4 (by decide) (by decide)

/-! ## Claim C2 -/

/-- C2: on every cache built by the constructor and every operation
trace issued at times `≤ T`, no key is observably present (per the
stores' expiry-aware `Exist`) in both `recent` and `frequent` at `T`. -/
theorem claim2_theorem {K V : Type} [DecidableEq K] (sz : Int) (rr gr : ℚ)
    (c0 : TwoQueueCache K V) (ops : List (Op K V)) (T : Nat) (k : K)
    (hc : TwoQueueCache.New2QParams sz rr gr = some c0)
    (hops : ∀ op ∈ ops, op.now ≤ T) :
    ¬((run c0 ops).recent.Exist T k = true ∧
      (run c0 ops).frequent.Exist T k = true) := by
  rintro ⟨hr, hf⟩
  have hinv := (invLive_init T hc).run_invLive ops hops
  obtain ⟨er, her, hkr, hlr⟩ := LruCache.exist_true_iff.mp hr
  have hkf : k ∈ (run c0 ops).frequent.keys := LruCache.exist_true_mem_keys hf
  obtain ⟨t, htt, hlt⟩ := hinv.dead er her (by rw [hkr]; exact hkf)
  have hdead : liveAt T er = false := liveAt_eq_false_iff.mpr ⟨t, htt, hlt⟩
  rw [hdead] at hlr
  cases hlr

theorem claim2_witness :
    ¬((run defaultCache4 [Op.set 0 1 1, Op.get 0 1]).recent.Exist 5 1 = true ∧
      (run defaultCache4 [Op.set 0 1 1, Op.get 0 1]).frequent.Exist 5 1 = true) :=
  claim2_theorem 4 Default2QRecentRatio Default2QGhostEntries defaultCache4
    [Op.set 0 1 1, Op.get 0 1] 5 1 New2QParams_eval_default4 (by decide)

/-! ## Claim C3 -/

/-- C3: `ensureSpace(isGhostReentry)` is a no-op below capacity;
otherwise, when `|recent| > 0` and (`|recent| > recentSize`, or
`|recent| = recentSize` and not a ghost reentry), it evicts the oldest
entry of `recent`, dropping its value and inserting its key into the
ghost store via the store's own bounded insertion (which silently
evicts the ghost's oldest key when at capacity); otherwise it removes
the oldest entry of `frequent`, remembered nowhere. -/
theorem claim3_theorem {K V : Type} [DecidableEq K] (c : TwoQueueCache K V)
    (g : Bool) :
    (c.recent.Len + c.frequent.Len < c.size → c.ensureSpace g = c) ∧
    (c.size ≤ c.recent.Len + c.frequent.Len →
      0 < c.recent.Len →
      (c.recentSize < c.recent.Len ∨
        (c.recent.Len = c.recentSize ∧ g = false)) →
      (c.ensureSpace g).frequent = c.frequent ∧
      (c.ensureSpace g).size = c.size ∧
      (c.ensureSpace g).recent.entries = c.recent.entries.tail ∧
      (c.ensureSpace g).recent.maxSize = c.recent.maxSize ∧
      ∃ k0, (c.recent.entries.head?).map (·.1) = some k0 ∧
        (c.ensureSpace g).recentEvict = c.recentEvict.Set k0 ()) ∧
    (c.size ≤ c.recent.Len + c.frequent.Len →
      ¬(0 < c.recent.Len ∧
        (c.recentSize < c.recent.Len ∨
          (c.recent.Len = c.recentSize ∧ g = false))) →
      (c.ensureSpace g).recent = c.recent ∧
      (c.ensureSpace g).recentEvict = c.recentEvict ∧
      (c.ensureSpace g).frequent.entries = c.frequent.entries.tail ∧
      (c.ensureSpace g).frequent.maxSize = c.frequent.maxSize) := by
  rcases TwoQueueCache.ensureSpace_spec c g with
    ⟨hlt, hq⟩ | ⟨hge, hcond, e, rest, hre, hq⟩ | ⟨hge, hcond, hq⟩
  · refine ⟨fun _ => hq, fun hc _ _ => absurd hlt (by omega), fun hc _ => absurd hlt (by omega)⟩
  · refine ⟨fun hc => absurd hc hge, fun _ _ _ => ?_, fun _ hnc => absurd hcond hnc⟩
    rw [hq, hre]
    exact ⟨rfl, rfl, rfl, rfl, e.1, rfl, rfl⟩
  · refine ⟨fun hc => absurd hc hge, fun _ hpos hdisj => absurd ⟨hpos, hdisj⟩ hcond,
      fun _ _ => ?_⟩
    rw [hq]
    exact ⟨rfl, rfl, c.frequent.DeleteOldest_snd_entries,
      c.frequent.DeleteOldest_snd_maxSize⟩

/-- `Set` the keys `1..4` (fills `recent` to the capacity). -/
def opsFour : List (Op Nat Nat) :=
  [.set 0 1 1, .set 0 2 2, .set 0 3 3, .set 0 4 4]

theorem claim3_witness :
    ((run defaultCache4 opsFour).ensureSpace false).frequent =
        (run defaultCache4 opsFour).frequent ∧
      ((run defaultCache4 opsFour).ensureSpace false).size =
        (run defaultCache4 opsFour).size ∧
      ((run defaultCache4 opsFour).ensureSpace false).recent.entries =
        (run defaultCache4 opsFour).recent.entries.tail ∧
      ((run defaultCache4 opsFour).ensureSpace false).recent.maxSize =
        (run defaultCache4 opsFour).recent.maxSize ∧
      ∃ k0, ((run defaultCache4 opsFour).recent.entries.head?).map (·.1) =
          some k0 ∧
        ((run defaultCache4 opsFour).ensureSpace false).recentEvict =
          (run defaultCache4 opsFour).recentEvict.Set k0 () :=
  (claim3_theorem (run defaultCache4 opsFour) false).2.1 (by decide) (by decide)
    (by decide)

/-! ## Claim C4 -/

/-- C4: with capacity 4 and the default ratios (`recentSize = 1`,
ghost capacity 2), setting keys 1..5 in order leaves key 1 evicted from
`recent` into the ghost store by the time the five insertions complete,
and a subsequent `Set` of key 1 (still in the ghost store) places it
directly into `frequent`, not into `recent`. -/
theorem claim4_theorem :
    (TwoQueueCache.New 4 : Option (TwoQueueCache Nat Nat) × Option String).1 =
        some defaultCache4 ∧
      defaultCache4.recentSize = 1 ∧ defaultCache4.recentEvict.maxSize = 2 ∧
      (run defaultCache4 opsFive).recentEvict.Exist 0 1 = true ∧
      (run defaultCache4 opsFive).recent.Exist 0 1 = false ∧
      (run defaultCache4 opsFive).frequent.Exist 0 1 = false ∧
      ((run defaultCache4 opsFive).Set 0 1 42).frequent.Exist 0 1 = true ∧
      ((run defaultCache4 opsFive).Set 0 1 42).recent.Exist 0 1 = false :=
  ⟨New_eval_default4, by decide⟩

/-! ## Claim C5 -/

/-- `Set(1..5, "one".."five")` on the capacity-4 default cache. -/
def opsFiveS : List (Op Nat String) :=
  [.set 0 1 "one", .set 0 2 "two", .set 0 3 "three", .set 0 4 "four",
   .set 0 5 "five"]

/-- Successive states of the literal scenario. -/
def lit0 : TwoQueueCache Nat String := run defaultCache4S opsFiveS

def lit1 : TwoQueueCache Nat String := (lit0.Get 0 1).2

def lit2 : TwoQueueCache Nat String := (lit1.Get 0 2).2

def lit3 : TwoQueueCache Nat String := (lit2.Get 0 2).2

def lit4 : TwoQueueCache Nat String := (lit3.Get 0 5).2

def lit5 : TwoQueueCache Nat String := lit4.Set 0 6 "six"

/-- C5 as stated is false on the code: in the literal scenario the
`Get(1)` after the five insertions is a miss (`found = false`) — key 1
was already evicted from `recent` into the ghost store by `Set(5)`, and
`Get` never consults the ghost store — so key 1 is never promoted into
`frequent`. -/
theorem claim5_counterexample :
    (TwoQueueCache.New2QParams 4 Default2QRecentRatio Default2QGhostEntries :
        Option (TwoQueueCache Nat String)) = some defaultCache4S ∧
      (lit0.Get 0 1).1 = none ∧
      lit1.frequent.Exist 0 1 = false :=
  ⟨New2QParams_eval_default4S, by decide, by decide⟩

/-- C5 (amended): in the literal scenario, `Get(1)` is a miss (key 1
sits only in the ghost store) and only key 2 is promoted into
`frequent`; the rest behaves as stated: `Get(2)` twice returns
`("two", true)`, `Get(5)` returns `("five", true)`, `Set(6, "six")`
evicts key 3 from the cold list into the ghost store so `Get(3)`
returns `found = false`, and `Get(2)` still returns `("two", true)`. -/
theorem claim5_amended_theorem :
    (lit0.Get 0 1).1 = none ∧
      (lit1.Get 0 2).1 = some "two" ∧
      (lit2.Get 0 2).1 = some "two" ∧
      lit3.frequent.Exist 0 2 = true ∧
      lit3.frequent.Exist 0 1 = false ∧
      (lit3.Get 0 5).1 = some "five" ∧
      lit5.recent.Exist 0 3 = false ∧
      lit5.recentEvict.Exist 0 3 = true ∧
      (lit5.Get 0 3).1 = none ∧
      (((lit5.Get 0 3).2).Get 0 2).1 = some "two" := by
  decide

/-! ## Claim C6 -/

/-- C6 as stated is false on the code: evict key 1 from `recent` into
the ghost store, re-insert it with `SetWithExpire` (which does not
consult the ghost store, so key 1 now sits in both `recent` and ghost),
then `Get(1)` promotes it from `recent` into `frequent` without
touching the ghost store — leaving key 1 observably present in both the
ghost store and `frequent` simultaneously. -/
theorem claim6_counterexample :
    (TwoQueueCache.New 4 : Option (TwoQueueCache Nat Nat) × Option String).1 =
        some defaultCache4 ∧
      (run defaultCache4 opsGhostFreq).recentEvict.Exist 0 1 = true ∧
      (run defaultCache4 opsGhostFreq).frequent.Exist 0 1 = true :=
  ⟨New_eval_default4, by decide, by decide⟩

/-- C6 (amended): on every constructed cache, along every operation
sequence not containing `SetWithExpire`, no key is ever present in the
ghost store and in `frequent` simultaneously. -/
theorem claim6_amended_theorem {K V : Type} [DecidableEq K] (sz : Int)
    (rr gr : ℚ) (c0 : TwoQueueCache K V) (ops : List (Op K V)) (T : Nat)
    (a : K) (hc : TwoQueueCache.New2QParams sz rr gr = some c0)
    (hops : ∀ op ∈ ops, op.isSetWithExpire = false) :
    ¬((run c0 ops).recentEvict.Exist T a = true ∧
      (run c0 ops).frequent.Exist T a = true) := by
  rintro ⟨hg, hf⟩
  have hinv := (invDisj_init hc).run_invDisj ops hops
  exact hinv.gf a (LruCache.exist_true_mem_keys hg)
    (LruCache.exist_true_mem_keys hf)

theorem claim6_amended_witness :
    ¬((run defaultCache4 opsFive).recentEvict.Exist 0 1 = true ∧
      (run defaultCache4 opsFive).frequent.Exist 0 1 = true) :=
  claim6_amended_theorem 4 Default2QRecentRatio Default2QGhostEntries
    defaultCache4 opsFive 0 1 New2QParams_eval_default4 (by decide)

/-! ## Claim C7 -/

theorem new2QParams_isSome_iff {K V : Type} [DecidableEq K] (sz : Int)
    (rr gr : ℚ) :
    (TwoQueueCache.New2QParams sz rr gr : Option (TwoQueueCache K V)).isSome =
        true ↔
      (0 < sz ∧ 0 ≤ rr ∧ rr ≤ 1 ∧ 0 ≤ gr ∧ gr ≤ 1) := by
  unfold TwoQueueCache.New2QParams
  split_ifs with h1 h2 h3
  · simp only [Option.isSome_none, Bool.false_eq_true, false_iff]
    rintro ⟨hpos, -⟩
    omega
  · simp only [Option.isSome_none, Bool.false_eq_true, false_iff]
    rintro ⟨-, hr0, hr1, -⟩
    rcases h2 with h2 | h2 <;> linarith
  · simp only [Option.isSome_none, Bool.false_eq_true, false_iff]
    rintro ⟨-, -, -, hg0, hg1⟩
    rcases h3 with h3 | h3 <;> linarith
  · simp only [Option.isSome_some, true_iff]
    push_neg at h1 h2 h3
    exact ⟨by omega, h2.1, h2.2, h3.1, h3.2⟩

/-- C7 as stated is false on the code: `New2QParams` accepts
`recentRatio = 0` (the Go check is `recentRatio < 0 || recentRatio > 1`)
and returns a usable instance, while the claim requires construction to
fail for `recentRatio = 0`. -/
theorem claim7_counterexample :
    (TwoQueueCache.New2QParams 4 0 (1 / 2) :
      Option (TwoQueueCache Nat Nat)).isSome = true :=
  (new2QParams_isSome_iff 4 0 (1 / 2)).mpr
    ⟨by norm_num, le_refl 0, by norm_num, by norm_num, by norm_num⟩

/-- C7 (amended): construction with explicit parameters returns a
usable instance if and only if `capacity > 0`, `0 ≤ recentRatio ≤ 1`
and `0 ≤ ghostRatio ≤ 1`; in particular `recentRatio = 0` is accepted. -/
theorem claim7_amended_theorem {K V : Type} [DecidableEq K] (sz : Int)
    (rr gr : ℚ) :
    (TwoQueueCache.New2QParams sz rr gr : Option (TwoQueueCache K V)).isSome =
        true ↔
      (0 < sz ∧ 0 ≤ rr ∧ rr ≤ 1 ∧ 0 ≤ gr ∧ gr ≤ 1) :=
  new2QParams_isSome_iff sz rr gr

/-! ## Claim C8 -/

theorem find?_append_of_forall_false {α : Type} (p : α → Bool)
    (l₁ l₂ : List α) (h : ∀ e ∈ l₁, p e = false) :
    (l₁ ++ l₂).find? p = l₂.find? p := by
  induction l₁ with
  | nil => rfl
  | cons a t ih =>
    have ha := h a (List.mem_cons_self a t)
    rw [List.cons_append]
    rw [List.find?_cons_of_neg _ (by simp [ha])]
    exact ih (fun e he => h e (List.mem_cons_of_mem a he))

theorem LruCache.findEntry_SetE {K V : Type} [DecidableEq K]
    {c : LruCache K V} (k : K) (v : V) (x : Option Nat)
    (hm : 0 < c.maxSize) : (c.SetE k v x).findEntry k = some (k, v, x) := by
  show (trim c.maxSize (eraseKey c.entries k ++ [(k, v, x)])).find?
      (fun e => decide (e.1 = k)) = some (k, v, x)
  unfold trim
  have hlen : (eraseKey c.entries k ++ [(k, v, x)]).length -
      c.maxSize ≤ (eraseKey c.entries k).length := by
    rw [List.length_append]
    simp only [List.length_singleton]
    omega
  rw [List.drop_append_of_le_length hlen]
  rw [find?_append_of_forall_false]
  · simp [List.find?]
  · intro e he
    have he' : e ∈ eraseKey c.entries k := List.mem_of_mem_drop he
    simp only [decide_eq_false_iff_not]
    exact (mem_eraseKey.mp he').2

/-- C8: `SetWithExpire(key, value, expiry)` overwrites in `frequent`
(with no expiry attached) when the key is observably present there;
for every other key — including a key currently held in the ghost
store — it inserts the key into `recent` with the given expiry; the
ghost store is never read (the result is independent of it) and never
mutated, and nothing is inserted into `frequent` beyond the overwrite
case. -/
theorem claim8_theorem {K V : Type} [DecidableEq K] (c : TwoQueueCache K V)
    (now : Nat) (k : K) (v : V) (ex : Nat) :
    (c.SetWithExpire now k v ex).recentEvict = c.recentEvict ∧
    (∀ g : LruCache K Unit,
      TwoQueueCache.SetWithExpire { c with recentEvict := g } now k v ex =
        { c.SetWithExpire now k v ex with recentEvict := g }) ∧
    (c.frequent.Exist now k = true →
      (c.SetWithExpire now k v ex).frequent = c.frequent.Set k v ∧
      (c.SetWithExpire now k v ex).recent = c.recent ∧
      (0 < c.frequent.maxSize →
        (c.SetWithExpire now k v ex).frequent.findEntry k =
          some (k, v, none))) ∧
    (c.frequent.Exist now k = false →
      (c.SetWithExpire now k v ex).recent = c.recent.SetWithExpire k v ex ∧
      (c.SetWithExpire now k v ex).frequent = c.frequent ∧
      (0 < c.recent.maxSize →
        (c.SetWithExpire now k v ex).recent.findEntry k =
          some (k, v, some ex))) := by
  refine ⟨?_, ?_, ?_, ?_⟩
  · by_cases h1 : c.frequent.Exist now k = true
    · simp [TwoQueueCache.SetWithExpire, h1]
    · rw [Bool.not_eq_true] at h1
      simp [TwoQueueCache.SetWithExpire, h1]
  · intro g
    by_cases h1 : c.frequent.Exist now k = true
    · simp [TwoQueueCache.SetWithExpire, h1]
    · rw [Bool.not_eq_true] at h1
      simp [TwoQueueCache.SetWithExpire, h1]
  · intro h1
    have hq : c.SetWithExpire now k v ex =
        { c with frequent := c.frequent.Set k v } := by
      simp [TwoQueueCache.SetWithExpire, h1]
    rw [hq]
    exact ⟨rfl, rfl, fun hm => LruCache.findEntry_SetE k v none hm⟩
  · intro h1
    have hq : c.SetWithExpire now k v ex =
        { c with recent := c.recent.SetWithExpire k v ex } := by
      simp [TwoQueueCache.SetWithExpire, h1]
    rw [hq]
    exact ⟨rfl, rfl, fun hm => LruCache.findEntry_SetE k v (some ex) hm⟩

theorem claim8_witness :
    ((run defaultCache4 opsFive).SetWithExpire 0 9 9 100).recent =
        (run defaultCache4 opsFive).recent.SetWithExpire 9 9 100 ∧
      ((run defaultCache4 opsFive).SetWithExpire 0 9 9 100).frequent =
        (run defaultCache4 opsFive).frequent ∧
      (0 < (run defaultCache4 opsFive).recent.maxSize →
        ((run defaultCache4 opsFive).SetWithExpire 0 9 9 100).recent.findEntry 9 =
          some (9, 9, some 100)) :=
  (claim8_theorem (run defaultCache4 opsFive) 0 9 9 100).2.2.2 (by decide)

/-! ## Claim C9 -/

theorem LruCache.get_eq_of_findEntry_none {K V : Type} [DecidableEq K]
    {c : LruCache K V} (now : Nat) {k : K} (h : c.findEntry k = none) :
    c.Get now k = (none, c) := by
  unfold LruCache.Get
  rw [h]

theorem LruCache.peek_eq_of_findEntry_none {K V : Type} [DecidableEq K]
    {c : LruCache K V} (now : Nat) {k : K} (h : c.findEntry k = none) :
    c.Peek now k = none := by
  unfold LruCache.Peek
  rw [h]

/-- C9: `Delete(key)` removes the key from all three stores, so a
subsequent `Get(key)` misses regardless of which store held it; and
deleting a key absent from all three stores leaves the state unchanged
(`Delete` is a total function — it has no failure mode). -/
theorem claim9_theorem {K V : Type} [DecidableEq K] (c : TwoQueueCache K V)
    (k : K) (now : Nat) :
    k ∉ (c.Delete k).recent.keys ∧
    k ∉ (c.Delete k).frequent.keys ∧
    k ∉ (c.Delete k).recentEvict.keys ∧
    ((c.Delete k).Get now k).1 = none ∧
    (k ∉ c.recent.keys → k ∉ c.frequent.keys → k ∉ c.recentEvict.keys →
      c.Delete k = c) := by
  have hr : k ∉ (c.recent.Delete k).keys := fun hm =>
    (LruCache.mem_keys_Delete.mp hm).2 rfl
  have hf : k ∉ (c.frequent.Delete k).keys := fun hm =>
    (LruCache.mem_keys_Delete.mp hm).2 rfl
  have hg : k ∉ (c.recentEvict.Delete k).keys := fun hm =>
    (LruCache.mem_keys_Delete.mp hm).2 rfl
  refine ⟨hr, hf, hg, ?_, ?_⟩
  · have h1 := LruCache.get_eq_of_findEntry_none now
      (LruCache.findEntry_none_iff.mpr hf)
    have h2 := LruCache.peek_eq_of_findEntry_none now
      (LruCache.findEntry_none_iff.mpr hr)
    simp [TwoQueueCache.Get, TwoQueueCache.Delete, h1, h2]
  · intro h1 h2 h3
    unfold TwoQueueCache.Delete
    rw [LruCache.Delete_eq_self h1, LruCache.Delete_eq_self h2,
      LruCache.Delete_eq_self h3]

theorem claim9_witness :
    (((run defaultCache4 opsFive).Delete 1).Get 0 1).1 = none ∧
      defaultCache4.Delete 7 = defaultCache4 :=
  ⟨(claim9_theorem (run defaultCache4 opsFive) 1 0).2.2.2.1,
    (claim9_theorem defaultCache4 7 0).2.2.2.2 (by decide) (by decide)
      (by decide)⟩

/-! ## Claim C10 -/

/-- C10: the default constructor `New(capacity)` returns a `nil` error
for every capacity, and the cache it returns is `nil` exactly when
`capacity ≤ 0` — construction failure is observable only through the
`nil` instance, never through the error result. -/
theorem claim10_theorem {K V : Type} [DecidableEq K] (sz : Int) :
    (TwoQueueCache.New sz : Option (TwoQueueCache K V) × Option String).2 =
        none ∧
      ((TwoQueueCache.New sz : Option (TwoQueueCache K V) × Option String).1 =
          none ↔ sz ≤ 0) := by
  refine ⟨rfl, ?_⟩
  show (TwoQueueCache.New2QParams sz Default2QRecentRatio Default2QGhostEntries :
    Option (TwoQueueCache K V)) = none ↔ sz ≤ 0
  constructor
  · intro h
    by_contra hpos
    push_neg at hpos
    have hsome : (TwoQueueCache.New2QParams sz Default2QRecentRatio
        Default2QGhostEntries : Option (TwoQueueCache K V)).isSome = true :=
      (new2QParams_isSome_iff sz Default2QRecentRatio
        Default2QGhostEntries).mpr
        ⟨hpos, by norm_num [Default2QRecentRatio],
          by norm_num [Default2QRecentRatio],
          by norm_num [Default2QGhostEntries],
          by norm_num [Default2QGhostEntries]⟩
    rw [h] at hsome
    cases hsome
  · intro h
    unfold TwoQueueCache.New2QParams
    rw [if_pos h]
